import Mathlib

/-!
Verification of the AILANG repository (parser and output-contract engine)
against its natural-language specification.

The Python sources `src/ailang/parser.py` and `src/ailang/contracts.py` are
shallowly embedded below.  Strings are modelled as Lean `String`/`List Char`
(the inputs of interest are ASCII; Python's Unicode-aware `\w` and `\s`
classes are modelled by their ASCII parts, which is what every claim
exercises).  Python `int` is `Int`, Python `float` is `Rat` (exact
rational arithmetic standing in for IEEE doubles; no claim depends on
binary-float rounding), fallible Python code returns `Except`.
-/

namespace AILang

/-- Python's `\s` class restricted to ASCII: the whitespace accepted by
`str.strip` and the `\s` regex class. -/
def isPySpace (c : Char) : Bool :=
  c = ' ' || c = '\t' || c = '\n' || c = '\r' || c = '\x0b' || c = '\x0c'

/-- Python's `\w` class restricted to ASCII: letters, digits, underscore. -/
def isWordChar (c : Char) : Bool :=
  c.isAlphanum || c = '_'

/-- Drop leading Python whitespace (left half of `str.strip`). -/
def stripL (cs : List Char) : List Char := cs.dropWhile isPySpace

/-- Python `str.strip()` on a character list: drop whitespace at both ends. -/
def pyStripChars (cs : List Char) : List Char :=
  ((cs.dropWhile isPySpace).reverse.dropWhile isPySpace).reverse

/-- Python `str.strip()` on a `String`. -/
def pyStrip (s : String) : String := String.mk (pyStripChars s.data)

/-!
## `_split_chain` (src/ailang/parser.py lines 83-113)

Scanner state: the previous character (for the escaped-quote test
`command[i-1] != "\\"`; `none` models `i == 0`), the accumulated current
segment, the signed bracket depth, and the in-quotes flag.  Mirrors the
Python `while` loop branch for branch; note that at a split the stripped
current segment is appended unconditionally (even when empty), while the
final segment is appended only when non-empty after stripping.
-/

def splitAux (prev : Option Char) (cs : List Char) (cur : List Char)
    (depth : Int) (inQ : Bool) : List (List Char) :=
  match cs with
  | [] => if pyStripChars cur = [] then [] else [pyStripChars cur]
  | c :: rest =>
    if c = '"' ∧ prev ≠ some '\\' then
      splitAux (some c) rest (cur ++ [c]) depth (!inQ)
    else if (c = '[' ∨ c = '\x7b' ∨ c = '(') ∧ inQ = false then
      splitAux (some c) rest (cur ++ [c]) (depth + 1) inQ
    else if (c = ']' ∨ c = '\x7d' ∨ c = ')') ∧ inQ = false then
      splitAux (some c) rest (cur ++ [c]) (depth - 1) inQ
    else if c = '>' ∧ depth = 0 ∧ inQ = false then
      pyStripChars cur :: splitAux (some c) rest [] depth inQ
    else
      splitAux (some c) rest (cur ++ [c]) depth inQ

/-- `_split_chain(command)`: split by `>` while respecting quotes and
brackets. -/
def splitChainChars (cs : List Char) : List (List Char) :=
  splitAux none cs [] 0 false

/-- `_split_chain` on a `String`, returning `String` segments. -/
def splitChain (s : String) : List String :=
  (splitChainChars s.data).map String.mk

/-!
## `_parse_single` (src/ailang/parser.py lines 116-169)

Each regex of the Python source is realised as an explicit scanner with the
same semantics (leftmost match, greedy `+`/`*`, non-overlapping `findall`,
advancing one position on a failed match attempt).
-/

/-- The AST of `parser.py` (`AILangAST` dataclass).  `chain` makes the type
recursive, so it is an inductive rather than a structure. -/
inductive AST : Type where
  | mk : (action : String) → (subject : String) → (specifiers : List String) →
      (must : List String) → (maybe : List String) → (priority : List String) →
      (avoid : List String) → (chain : Option AST) → (parallel : List String) →
      (persona : Option String) → (vars : List String) → AST
deriving Repr

def AST.action : AST → String
  | .mk a _ _ _ _ _ _ _ _ _ _ => a

def AST.subject : AST → String
  | .mk _ s _ _ _ _ _ _ _ _ _ => s

def AST.specifiers : AST → List String
  | .mk _ _ sp _ _ _ _ _ _ _ _ => sp

def AST.must : AST → List String
  | .mk _ _ _ m _ _ _ _ _ _ _ => m

def AST.maybe : AST → List String
  | .mk _ _ _ _ m _ _ _ _ _ _ => m

def AST.priority : AST → List String
  | .mk _ _ _ _ _ p _ _ _ _ _ => p

def AST.avoid : AST → List String
  | .mk _ _ _ _ _ _ a _ _ _ _ => a

def AST.chain : AST → Option AST
  | .mk _ _ _ _ _ _ _ c _ _ _ => c

def AST.parallel : AST → List String
  | .mk _ _ _ _ _ _ _ _ p _ _ => p

def AST.persona : AST → Option String
  | .mk _ _ _ _ _ _ _ _ _ p _ => p

/-- The `variables` field (that word is reserved in Lean, hence `vars`). -/
def AST.vars : AST → List String
  | .mk _ _ _ _ _ _ _ _ _ _ v => v

/-- `ast.persona = p` (field assignment in `parse`). -/
def AST.setPersona : AST → Option String → AST
  | .mk a s sp m mb pr av ch par _ v, p => .mk a s sp m mb pr av ch par p v

/-- `ast.chain = c` (field assignment in `parse`). -/
def AST.setChain : AST → Option AST → AST
  | .mk a s sp m mb pr av _ par p v, c => .mk a s sp m mb pr av c par p v

/-- `re.findall(r"\[([^\]]+)\]", rest)` as a one-character-per-step scanner.
`none` state: outside a candidate match; `some acc` state: after a `[`,
collecting `[^\]]+` content (reversed).  A `]` with empty content fails the
attempt (`+` requires at least one character, and the engine then resumes
scanning after the `[`, which cannot find a new `[` before this `]`); a `]`
with content emits a match; running out of input emits nothing, matching the
regex (no `]` remains for any later attempt either). -/
def findSpecsGo : List Char → Option (List Char) → List String
  | [], _ => []
  | c :: rest, none =>
    if c = '[' then findSpecsGo rest (some []) else findSpecsGo rest none
  | c :: rest, some acc =>
    if c = ']' then
      match acc with
      | [] => findSpecsGo rest none
      | _ => String.mk acc.reverse :: findSpecsGo rest none
    else findSpecsGo rest (some (c :: acc))

/-- `re.findall(r"\[([^\]]+)\]", rest)`. -/
def findSpecs (cs : List Char) : List String := findSpecsGo cs none

/-- `re.findall(r"M(\w+)", rest)` for a marker character `M` (one of
`!`, `~`, `^`, `_`) as a one-character-per-step scanner.  `some acc` is the
state after a marker, collecting the greedy `\w+` run; a non-word character
ends the run (emitting it when non-empty, i.e. when at least one word
character followed the marker) and is itself rescanned as a potential
marker, which is exactly where the non-overlapping `findall` resumes. -/
def findModsGo (marker : Char) : List Char → Option (List Char) → List String
  | [], none => []
  | [], some [] => []
  | [], some acc => [String.mk acc.reverse]
  | c :: rest, none =>
    if c = marker then findModsGo marker rest (some [])
    else findModsGo marker rest none
  | c :: rest, some acc =>
    if isWordChar c then findModsGo marker rest (some (c :: acc))
    else
      let out :=
        if c = marker then findModsGo marker rest (some [])
        else findModsGo marker rest none
      match acc with
      | [] => out
      | _ => String.mk acc.reverse :: out

/-- `re.findall(r"M(\w+)", rest)`. -/
def findMods (marker : Char) (cs : List Char) : List String :=
  findModsGo marker cs none

/-- Scanner state for `re.search(r"&\s*(\w+(?:\s*&\s*\w+)*)", rest)`.
`spanRev` is the matched text so far (reversed); `pend` buffers characters
examined by a not-yet-confirmed `\s*&\s*\w+` tail iteration (they join the
span only when a word character confirms the iteration). -/
inductive AmpState : Type where
  | scan : AmpState
  | sp1 : List Char → AmpState
  | word : List Char → AmpState
  | tail : List Char → List Char → AmpState
  | tail2 : List Char → List Char → AmpState

/-- `re.search(r"&\s*(\w+(?:\s*&\s*\w+)*)", rest)` as a one-character-per-
step scanner returning `group(0)` (the full match, which starts at the `&`).
`scan`: before the match; `sp1`: inside the leading `&\s*`; `word`: inside a
greedy `\w+` run; `tail`/`tail2`: inside the `\s*` before / after the `&` of
a candidate `(?:\s*&\s*\w+)` iteration.  A failed leading attempt resumes
scanning (the skipped whitespace cannot contain a match start `&`); once one
word has been matched the regex has succeeded, so a failed tail iteration
terminates the search with the span accumulated so far. -/
def ampGo : List Char → AmpState → Option (List Char)
  | [], .scan => none
  | [], .sp1 _ => none
  | [], .word spanRev => some spanRev.reverse
  | [], .tail spanRev _ => some spanRev.reverse
  | [], .tail2 spanRev _ => some spanRev.reverse
  | c :: rest, .scan =>
    if c = '&' then ampGo rest (.sp1 ['&']) else ampGo rest .scan
  | c :: rest, .sp1 spanRev =>
    if isPySpace c then ampGo rest (.sp1 (c :: spanRev))
    else if isWordChar c then ampGo rest (.word (c :: spanRev))
    else if c = '&' then ampGo rest (.sp1 ['&'])
    else ampGo rest .scan
  | c :: rest, .word spanRev =>
    if isWordChar c then ampGo rest (.word (c :: spanRev))
    else if isPySpace c then ampGo rest (.tail spanRev [c])
    else if c = '&' then ampGo rest (.tail2 spanRev [c])
    else some spanRev.reverse
  | c :: rest, .tail spanRev pend =>
    if isPySpace c then ampGo rest (.tail spanRev (c :: pend))
    else if c = '&' then ampGo rest (.tail2 spanRev (c :: pend))
    else some spanRev.reverse
  | c :: rest, .tail2 spanRev pend =>
    if isPySpace c then ampGo rest (.tail2 spanRev (c :: pend))
    else if isWordChar c then ampGo rest (.word (c :: (pend ++ spanRev)))
    else some spanRev.reverse

/-- `re.search(r"&\s*(\w+(?:\s*&\s*\w+)*)", rest)`, full match text. -/
def parallelSearch (cs : List Char) : Option (List Char) :=
  ampGo cs .scan

/-- Python `str.split(sep)` for a one-character separator, on char lists. -/
def pySplit (sep : Char) : List Char → List (List Char)
  | [] => [[]]
  | c :: rest =>
    if c = sep then [] :: pySplit sep rest
    else
      match pySplit sep rest with
      | h :: t => (c :: h) :: t
      | [] => [[c]]

/-- `[p.strip() for p in match.group(0).split("&") if p.strip()]`. -/
def parallelOf (cs : List Char) : List String :=
  match parallelSearch cs with
  | none => []
  | some g0 =>
    ((pySplit '&' g0).map (fun p => String.mk (pyStripChars p))).filter (· ≠ "")

/-- `re.findall(r"\{(\w+)\}", command)` as a one-character-per-step
scanner.  `some acc` is the state after a `{`, collecting `\w+`; a `}`
with non-empty content emits a match; any other non-word character fails
the attempt and is rescanned (it may itself be a `{`), matching where the
engine resumes after a failed attempt. -/
def findVarsGo : List Char → Option (List Char) → List String
  | [], _ => []
  | c :: rest, none =>
    if c = '\x7b' then findVarsGo rest (some []) else findVarsGo rest none
  | c :: rest, some acc =>
    if isWordChar c then findVarsGo rest (some (c :: acc))
    else if c = '\x7d' then
      match acc with
      | [] => findVarsGo rest none
      | _ => String.mk acc.reverse :: findVarsGo rest none
    else if c = '\x7b' then findVarsGo rest (some [])
    else findVarsGo rest none

/-- `re.findall(r"\{(\w+)\}", command)`. -/
def findVars (cs : List Char) : List String := findVarsGo cs none

/-- First-seen deduplication of the variable dictionary keys. -/
def dedupKeys : List String → List String
  | [] => []
  | k :: rest => k :: (dedupKeys rest).filter (· ≠ k)

/-- `_parse_single(command)` over characters.  Returns the `ParseError`
message on failure. -/
def parseSingleChars (cs : List Char) : Except String AST :=
  let action := cs.takeWhile isWordChar
  if action = [] then
    .error ("Could not find action in: " ++ String.mk cs)
  else
    let rest0 := pyStripChars (cs.drop action.length)
    -- subject: `^"([^"]*)"` else `^\{(\w+)\}` else empty
    let (subject, rest) :=
      match rest0 with
      | '"' :: r =>
        let g := r.takeWhile (· ≠ '"')
        if (r.drop g.length).head? = some '"' then
          (String.mk g, pyStripChars (r.drop (g.length + 1)))
        else ("", rest0)
      | '\x7b' :: r =>
        let w := r.takeWhile isWordChar
        if w ≠ [] ∧ (r.drop w.length).head? = some '\x7d' then
          (String.mk ('\x7b' :: w ++ ['\x7d']), pyStripChars (r.drop (w.length + 1)))
        else ("", rest0)
      | _ => ("", rest0)
    .ok (AST.mk (String.mk action) subject
      (findSpecs rest)
      (findMods '!' rest) (findMods '~' rest) (findMods '^' rest) (findMods '_' rest)
      none
      (parallelOf rest)
      none
      (dedupKeys (findVars cs)))

/-- `_parse_single` on a `String`. -/
def parseSingle (s : String) : Except String AST :=
  parseSingleChars s.data

/-!
## `parse` (src/ailang/parser.py lines 33-80)

The persona wrapper is recognised by
`re.match(r'@as\s+"([^"]+)"\s*\{(.+)\}', command, re.DOTALL)`: a literal
`@as`, at least one whitespace, a quoted non-empty persona (no escapes:
`[^"]+` stops at the first quote), optional whitespace, `{`, then a greedy
`(.+)` that extends to the **last** `}` of the string (so at least one
character must precede that `}`); `re.match` does not anchor the end, so
trailing text after that `}` is discarded.
-/

/-- The persona regex: on success, `(group(1), group(2))`. -/
def personaMatch (cs : List Char) : Option (String × String) :=
  match cs with
  | '@' :: 'a' :: 's' :: rest =>
    if (rest.head?.map isPySpace).getD false then
      match rest.dropWhile isPySpace with
      | '"' :: r2 =>
        let g1 := r2.takeWhile (· ≠ '"')
        if g1 = [] then none
        else
          match r2.drop g1.length with
          | '"' :: r4 =>
            match (r4.dropWhile isPySpace) with
            | '\x7b' :: r6 =>
              -- `(.+)\}` : greedy, so the closing brace is the last `}`
              match r6.reverse.dropWhile (· ≠ '\x7d') with
              | '\x7d' :: revBody =>
                if revBody = [] then none
                else some (String.mk g1, String.mk revBody.reverse)
              | _ => none
            | _ => none
          | _ => none
      | _ => none
    else none
  | _ => none

/-- `" > ".join(parts)` on character lists. -/
def joinGt : List (List Char) → List Char
  | [] => []
  | [p] => p
  | p :: ps => p ++ ' ' :: '>' :: ' ' :: joinGt ps

/-- `parse(command)`.

The Python function recurses on `" > ".join(chain_parts[1:])`, which is not
structurally smaller, so the embedding takes an explicit fuel argument;
every recursive call re-splits a string with strictly fewer `>` characters,
so any fuel larger than the number of `>` characters in the input makes the
embedding agree with the Python function (the theorems below hold for
every fuel). -/
def parseFuel : Nat → List Char → Except String AST
  | 0, _ => .error "out of fuel"
  | fuel + 1, command =>
    let command := pyStripChars command
    let persona : Option String := (personaMatch command).map Prod.fst
    let command :=
      match personaMatch command with
      | some (_, body) => pyStripChars body.data
      | none => command
    match splitChainChars command with
    | p0 :: p1 :: rest => do
      let ast ← parseSingleChars p0
      let chainAst ← parseFuel fuel (joinGt (p1 :: rest))
      pure ((ast.setPersona persona).setChain (some chainAst))
    | _ => do
      let ast ← parseSingleChars command
      pure (ast.setPersona persona)

/-- `parse` on a `String`, with fuel. -/
def parseWith (fuel : Nat) (s : String) : Except String AST :=
  parseFuel fuel s.data

/-!
## Output contracts (src/ailang/contracts.py)

Values decoded from JSON (the inputs of `validate`/`parse`) are modelled by
`JValue`; values produced by the `parse` coercions by `PyVal`.  Python
`float` is modelled by `Rat` (exact rationals; no claim depends on binary
floating-point artefacts), and `str()`/`repr()` of floats and the escaping
inside `repr()` of strings are rendered in a fixed reasonable form - they
only feed human-readable error messages and no claim depends on them.
-/

/-- A decoded JSON value (output of `json.loads`): Python
`None`/`bool`/`int`/`float`/`str`/`list`/`dict`. -/
inductive JValue : Type where
  | null : JValue
  | bool : Bool → JValue
  | int : Int → JValue
  | float : Rat → JValue
  | str : String → JValue
  | arr : List JValue → JValue
  | obj : List (String × JValue) → JValue
deriving Repr

/-- A value produced by the `parse` coercions. -/
inductive PyVal : Type where
  | none : PyVal
  | bool : Bool → PyVal
  | int : Int → PyVal
  | float : Rat → PyVal
  | str : String → PyVal
  | list : List PyVal → PyVal
  | obj : List (String × PyVal) → PyVal
deriving Repr

/-- Embed an untouched decoded value into the result space (`list(value)`
keeps raw elements). -/
def jToPy : JValue → PyVal
  | .null => .none
  | .bool b => .bool b
  | .int i => .int i
  | .float q => .float q
  | .str s => .str s
  | .arr l => .list (jToPyList l)
  | .obj l => .obj (jToPyPairs l)
where
  jToPyList : List JValue → List PyVal
    | [] => []
    | v :: rest => jToPy v :: jToPyList rest
  jToPyPairs : List (String × JValue) → List (String × PyVal)
    | [] => []
    | (k, v) :: rest => (k, jToPy v) :: jToPyPairs rest

/-- `str(float)` rendered as an exact decimal when the denominator divides a
power of ten, else as a fraction (an approximation of Python's shortest
round-trip form; only used in messages, never in a claim). -/
def pyFloatRepr (q : Rat) : String :=
  if q.den = 1 then toString q.num ++ ".0" else toString q

/-- Python `repr(value)` (the `{value!r}` in the validation error message;
string escaping is not reproduced). -/
def pyRepr : JValue → String
  | .null => "None"
  | .bool true => "True"
  | .bool false => "False"
  | .int i => toString i
  | .float q => pyFloatRepr q
  | .str s => "'" ++ s ++ "'"
  | .arr l => "[" ++ String.intercalate ", " (pyReprList l) ++ "]"
  | .obj l => "\x7b" ++ String.intercalate ", " (pyReprPairs l) ++ "\x7d"
where
  pyReprList : List JValue → List String
    | [] => []
    | v :: rest => pyRepr v :: pyReprList rest
  pyReprPairs : List (String × JValue) → List String
    | [] => []
    | (k, v) :: rest => ("'" ++ k ++ "': " ++ pyRepr v) :: pyReprPairs rest

/-- Python `str(value)`: the identity on strings, `repr`-style otherwise
(`str` of a container uses `repr` of its elements). -/
def pyStr : JValue → String
  | .str s => s
  | v => pyRepr v

/-- Python truthiness of a decoded value (used by `Bool.parse`'s
`bool(value)` fallback). -/
def pyTruthy : JValue → Bool
  | .null => false
  | .bool b => b
  | .int i => i ≠ 0
  | .float q => q ≠ 0
  | .str s => s ≠ ""
  | .arr l => !l.isEmpty
  | .obj l => !l.isEmpty

/-- Iterating a Python value (`[... for item in value]` / `list(value)`):
lists yield elements, strings yield one-character strings, dicts yield
their keys; other values raise `TypeError`. -/
def pyIter : JValue → Except String (List JValue)
  | .arr l => .ok l
  | .str s => .ok (s.data.map (fun c => .str (String.mk [c])))
  | .obj l => .ok (l.map (fun kv => .str kv.1))
  | _ => .error "TypeError: not iterable"

/-!
### Numeric coercion (`int(value)`, `float(value)`)
-/

/-- A run of decimal digits with Python's single-underscore-between-digits
rule (`1_000` is accepted, `1__0`, `1_` are not); returns the value, the
number of digits, and the remaining input. -/
def digitsUSGo (acc count : Nat) : List Char → Option (Nat × Nat × List Char)
  | [] => some (acc, count, [])
  | '_' :: d :: rest =>
    if d.isDigit then digitsUSGo (acc * 10 + (d.toNat - 48)) (count + 1) rest
    else none
  | ['_'] => none
  | c :: rest =>
    if c.isDigit then digitsUSGo (acc * 10 + (c.toNat - 48)) (count + 1) rest
    else some (acc, count, c :: rest)

/-- Python `int(s)` for a string: optional surrounding whitespace, optional
sign, a digit run.  (Non-ASCII digits are out of the model.) -/
def pyIntStr (s : String) : Option Int :=
  let cs := pyStripChars s.data
  let (sgn, cs2) : Int × List Char :=
    match cs with
    | '+' :: r => (1, r)
    | '-' :: r => (-1, r)
    | r => (1, r)
  match cs2 with
  | d :: _ =>
    if d.isDigit then
      match digitsUSGo 0 0 cs2 with
      | some (v, _, []) => some (sgn * v)
      | _ => none
    else none
  | [] => none

/-- Truncation toward zero (Python `int(float)`). -/
def ratTrunc (q : Rat) : Int := if 0 ≤ q then q.floor else q.ceil

/-- `10^e` as a rational, for decimal exponents. -/
def ratPow10 (e : Int) : Rat :=
  if 0 ≤ e then mkRat (10 ^ e.toNat) 1 else mkRat 1 (10 ^ (-e).toNat)

/-- Python `int(value)`: bools and ints pass through, floats truncate,
strings parse as integer literals; everything else raises. -/
def intCoerce : JValue → Option Int
  | .bool b => some (if b then 1 else 0)
  | .int i => some i
  | .float q => some (ratTrunc q)
  | .str s => pyIntStr s
  | _ => Option.none

/-- Python `float(s)` for a string: optional whitespace and sign, then
`digits [. digits] [e[sign]digits]` with at least one mantissa digit
(underscores as in `digitsUSGo`).  The special words `inf`/`infinity`/`nan`
have no rational counterpart and are treated as failures; no claim
involves them. -/
def pyFloatStr (s : String) : Option Rat := do
  let cs := pyStripChars s.data
  let (sgn, cs) : Rat × List Char :=
    match cs with
    | '+' :: r => (1, r)
    | '-' :: r => (-1, r)
    | r => (1, r)
  let (ip, ipCnt, cs) ←
    match cs with
    | d :: _ => if d.isDigit then digitsUSGo 0 0 cs else pure (0, 0, cs)
    | [] => pure (0, 0, cs)
  let (fp, fpCnt, cs) ←
    match cs with
    | '.' :: r =>
      match r with
      | d :: _ =>
        if d.isDigit then digitsUSGo 0 0 r else pure (0, 0, r)
      | [] => pure (0, 0, r)
    | _ => pure (0, 0, cs)
  if ipCnt + fpCnt = 0 then failure
  else
    let (ex, cs) ← (do
      match cs with
      | e :: r =>
        if e = 'e' ∨ e = 'E' then do
          let (esgn, r2) : Int × List Char :=
            match r with
            | '+' :: r2 => (1, r2)
            | '-' :: r2 => (-1, r2)
            | r2 => (1, r2)
          match r2 with
          | d :: _ =>
            if d.isDigit then do
              let (ev, _, r3) ← digitsUSGo 0 0 r2
              pure (esgn * ev, r3)
            else failure
          | [] => failure
        else pure ((0 : Int), e :: r)
      | [] => pure ((0 : Int), ([] : List Char)))
    if cs = [] then
      pure (sgn * ((ip : Rat) + mkRat (fp : Int) (10 ^ fpCnt)) * ratPow10 ex)
    else failure

/-- Python `float(value)`. -/
def floatCoerce : JValue → Option Rat
  | .bool b => some (if b then 1 else 0)
  | .int i => some (i : Rat)
  | .float q => some q
  | .str s => pyFloatStr s
  | _ => Option.none

/-- Round to the nearest integer, ties to even (Python `round`). -/
def roundHalfEven (x : Rat) : Int :=
  let f := x.floor
  let r := x - (f : Rat)
  if r < 1 / 2 then f
  else if 1 / 2 < r then f + 1
  else if f % 2 = 0 then f else f + 1

/-- Python `round(v, p)` on the rational model (exact half-even at `p`
decimal digits; the binary-float artefacts of the real `round` are out of
the model and out of every claim). -/
def pyRound (q : Rat) (p : Int) : Rat :=
  ((roundHalfEven (q * ratPow10 p) : Rat)) * ratPow10 (-p)

/-!
### `json.loads` (used by `List_.parse` on string input and by
`OutputContract.parse_response`)

A strict JSON reader (RFC 8259 grammar as implemented by Python's `json`):
`null/true/false`, strict numbers, strings with the standard escapes
(`\uXXXX` taken as a single code unit; surrogate pairs are not combined),
arrays, objects.  Python's nonstandard `NaN`/`Infinity` literals decode to
floats that `Rat` cannot represent and are treated as decode failures; no
claim touches them.  The fuel argument strictly decreases on every
recursive call; `2 * length + 8` exceeds any possible call depth, so the
wrapper below is total and agrees with `json.loads` wherever the model
applies. -/
def jsonWs (cs : List Char) : List Char :=
  cs.dropWhile (fun c => c = ' ' || c = '\t' || c = '\n' || c = '\r')

/-- Hexadecimal digit value. -/
def hexVal (c : Char) : Option Nat :=
  if c.isDigit then some (c.toNat - 48)
  else if 'a' ≤ c ∧ c ≤ 'f' then some (c.toNat - 87)
  else if 'A' ≤ c ∧ c ≤ 'F' then some (c.toNat - 55)
  else none

/-- JSON string body (after the opening quote). -/
def jsonStrGo (acc : List Char) : List Char → Option (String × List Char)
  | [] => none
  | '\\' :: '"' :: rest => jsonStrGo ('"' :: acc) rest
  | '\\' :: '\\' :: rest => jsonStrGo ('\\' :: acc) rest
  | '\\' :: '/' :: rest => jsonStrGo ('/' :: acc) rest
  | '\\' :: 'b' :: rest => jsonStrGo ('\x08' :: acc) rest
  | '\\' :: 'f' :: rest => jsonStrGo ('\x0c' :: acc) rest
  | '\\' :: 'n' :: rest => jsonStrGo ('\n' :: acc) rest
  | '\\' :: 'r' :: rest => jsonStrGo ('\r' :: acc) rest
  | '\\' :: 't' :: rest => jsonStrGo ('\t' :: acc) rest
  | '\\' :: 'u' :: h1 :: h2 :: h3 :: h4 :: rest2 => do
    let a ← hexVal h1
    let b ← hexVal h2
    let c ← hexVal h3
    let d ← hexVal h4
    let n := ((a * 16 + b) * 16 + c) * 16 + d
    if 0xd800 ≤ n ∧ n < 0xe000 then none
    else jsonStrGo (Char.ofNat n :: acc) rest2
  | '\\' :: _ => none
  | '"' :: rest => some (String.mk acc.reverse, rest)
  | c :: rest => if c.toNat < 32 then none else jsonStrGo (c :: acc) rest

/-- Plain digit run (strict JSON numbers have no underscores). -/
def jsonDigits (acc count : Nat) : List Char → Nat × Nat × List Char
  | [] => (acc, count, [])
  | c :: rest =>
    if c.isDigit then jsonDigits (acc * 10 + (c.toNat - 48)) (count + 1) rest
    else (acc, count, c :: rest)

/-- Strict JSON number: `-? (0 | [1-9][0-9]*) (. [0-9]+)? ([eE][+-]?[0-9]+)?`;
an integer literal decodes to a Python `int`, anything with a fraction or
exponent to a `float`. -/
def jsonNumber (cs : List Char) : Option (JValue × List Char) := do
  let (neg, cs) : Bool × List Char :=
    match cs with
    | '-' :: r => (true, r)
    | r => (false, r)
  let (ip, cs) ←
    match cs with
    | '0' :: r =>
      match r with
      | d :: _ => if d.isDigit then failure else pure ((0 : Nat), r)
      | [] => pure ((0 : Nat), ([] : List Char))
    | d :: _ =>
      if d.isDigit then
        let (v, _, r) := jsonDigits 0 0 cs
        pure (v, r)
      else failure
    | [] => failure
  let (fp, fpCnt, isFloat1, cs) ←
    match cs with
    | '.' :: r =>
      match r with
      | d :: _ =>
        if d.isDigit then
          let (v, k, r2) := jsonDigits 0 0 r
          pure (v, k, true, r2)
        else failure
      | [] => failure
    | r => pure ((0 : Nat), (0 : Nat), false, r)
  let (ex, isFloat2, cs) ←
    match cs with
    | e :: r =>
      if e = 'e' ∨ e = 'E' then
        let (esgn, r2) : Int × List Char :=
          match r with
          | '+' :: r2 => (1, r2)
          | '-' :: r2 => (-1, r2)
          | r2 => (1, r2)
        match r2 with
        | d :: _ =>
          if d.isDigit then
            let (ev, _, r3) := jsonDigits 0 0 r2
            pure (esgn * ev, true, r3)
          else failure
        | [] => failure
      else pure ((0 : Int), false, e :: r)
    | [] => pure ((0 : Int), false, ([] : List Char))
  if isFloat1 ∨ isFloat2 then
    let mag : Rat := ((ip : Rat) + mkRat (fp : Int) (10 ^ fpCnt)) * ratPow10 ex
    pure (JValue.float (if neg then -mag else mag), cs)
  else
    pure (JValue.int (if neg then -(ip : Int) else (ip : Int)), cs)

/-- Replace the value of an existing key in place, else append — the
behaviour of repeated `dict` assignment (`json.loads` keeps the last value
of a duplicated key at its first position). -/
def assocSet (l : List (String × JValue)) (k : String) (v : JValue) :
    List (String × JValue) :=
  match l with
  | [] => [(k, v)]
  | (k0, v0) :: rest =>
    if k0 = k then (k0, v) :: rest else (k0, v0) :: assocSet rest k v

mutual

/-- One JSON value, leading whitespace allowed. -/
def jsonVal : Nat → List Char → Option (JValue × List Char)
  | 0, _ => none
  | fuel + 1, cs =>
    match jsonWs cs with
    | 'n' :: 'u' :: 'l' :: 'l' :: rest => some (.null, rest)
    | 't' :: 'r' :: 'u' :: 'e' :: rest => some (.bool true, rest)
    | 'f' :: 'a' :: 'l' :: 's' :: 'e' :: rest => some (.bool false, rest)
    | '"' :: rest => (jsonStrGo [] rest).map (fun sr => (.str sr.1, sr.2))
    | '[' :: rest =>
      (match jsonWs rest with
       | ']' :: r2 => some (.arr [], r2)
       | r2 => jsonArrGo fuel [] r2)
    | '\x7b' :: rest =>
      (match jsonWs rest with
       | '\x7d' :: r2 => some (.obj [], r2)
       | r2 => jsonObjGo fuel [] r2)
    | rest => jsonNumber rest

/-- Array elements after the first `[` (at least one element remains). -/
def jsonArrGo : Nat → List JValue → List Char → Option (JValue × List Char)
  | 0, _, _ => none
  | fuel + 1, acc, cs => do
    let (v, rest) ← jsonVal fuel cs
    match jsonWs rest with
    | ',' :: r2 => jsonArrGo fuel (v :: acc) r2
    | ']' :: r2 => some (.arr (v :: acc).reverse, r2)
    | _ => none

/-- Object members after the first `{` (at least one member remains). -/
def jsonObjGo : Nat → List (String × JValue) → List Char →
    Option (JValue × List Char)
  | 0, _, _ => none
  | fuel + 1, acc, cs =>
    match jsonWs cs with
    | '"' :: r1 => do
      let (k, r2) ← jsonStrGo [] r1
      match jsonWs r2 with
      | ':' :: r3 => do
        let (v, r4) ← jsonVal fuel r3
        match jsonWs r4 with
        | ',' :: r5 => jsonObjGo fuel (assocSet acc k v) r5
        | '\x7d' :: r5 => some (.obj (assocSet acc k v), r5)
        | _ => none
      | _ => none
    | _ => none

end

/-- `json.loads(s)`: one JSON value with nothing but whitespace after it. -/
def jsonLoads (s : String) : Option JValue := do
  let (v, rest) ← jsonVal (2 * s.data.length + 8) s.data
  if jsonWs rest = [] then pure v else failure

/-!
### The constraint variants (contracts.py classes `Str` … `Enum_`)

One closed sum with one case per dataclass.  Numeric bounds keep Python's
`int`/`float` types (`Option Int` / `Option Rat`); a `None` bound is
`none`.  A compiled regex `pattern` is embedded as its match predicate
(`re.match(pattern, ·) is not None`); `None` stays `none`.  (Python also
treats the empty pattern string as falsy in `Str.validate`'s
`if self.pattern` test; that corner is not representable here and no claim
involves patterns.)
-/
inductive TC : Type where
  | Str : (max min : Option Int) → (pattern : Option (String → Bool)) → TC
  | Int : (min max : Option Int) → TC
  | Float : (min max : Option Rat) → (precision : Option Int) → TC
  | Bool : TC
  | Code : (language : String) → TC
  | List_ : (item_type : Option TC) → (min_items max_items exact_items : Option Int) → TC
  | Optional_ : (inner : TC) → TC
  | Enum_ : (choices : List String) → TC

/-- `str.lower()` restricted to ASCII (the token sets it is compared
against are ASCII). -/
def asciiLower (s : String) : String :=
  String.mk (s.data.map (fun c =>
    if 'A' ≤ c ∧ c ≤ 'Z' then Char.ofNat (c.toNat + 32) else c))

/-- Python truthiness of an `int`-or-`None` field (`if self.max:` - both
`None` and `0` are falsy). -/
def optIntTruthy : Option Int → Bool
  | none => false
  | some i => i != 0

/-- Python errors crossing `parse_response`: `ContractError` versus an
uncaught exception escaping from a `parse` coercion (`ValueError` /
`TypeError`, which `parse_response` does not catch). -/
inductive PErr : Type where
  | contract : String → PErr
  | pyexc : String → PErr
deriving Repr, DecidableEq

/-- `to_prompt` of every variant (used in prompt bullets and in validation
error messages). -/
def toPrompt : TC → String
  | .Str max min _ =>
    String.intercalate " " (["text"]
      ++ (if optIntTruthy max then ["(maximum " ++ toString ((max.getD 0)) ++ " characters)"] else [])
      ++ (if optIntTruthy min then ["(minimum " ++ toString ((min.getD 0)) ++ " characters)"] else []))
  | .Int min max =>
    String.intercalate " " (["integer number"] ++
      (match min, max with
       | some a, some b => ["(between " ++ toString a ++ " and " ++ toString b ++ ")"]
       | some a, none => ["(minimum " ++ toString a ++ ")"]
       | none, some b => ["(maximum " ++ toString b ++ ")"]
       | none, none => []))
  | .Float _ _ precision =>
    String.intercalate " " (["decimal number"] ++
      (match precision with
       | some p => if p != 0 then ["(to " ++ toString p ++ " decimal places)"] else []
       | none => []))
  | .Bool => "boolean (true/false)"
  | .Code language => "code in " ++ language ++ " (just the code, no markdown fences)"
  | .List_ item_type min_items max_items exact_items =>
    String.intercalate " " (["list"]
      ++ (if optIntTruthy exact_items then
            ["of exactly " ++ toString (exact_items.getD 0) ++ " items"]
          else if optIntTruthy min_items && optIntTruthy max_items then
            ["of " ++ toString (min_items.getD 0) ++ "-" ++ toString (max_items.getD 0) ++ " items"]
          else if optIntTruthy min_items then
            ["of at least " ++ toString (min_items.getD 0) ++ " items"]
          else if optIntTruthy max_items then
            ["of at most " ++ toString (max_items.getD 0) ++ " items"]
          else [])
      ++ (match item_type with
          | some t => ["where each item is " ++ toPrompt t]
          | none => []))
  | .Optional_ inner => toPrompt inner ++ " (or null if not applicable)"
  | .Enum_ choices => "one of: " ++ String.intercalate ", " choices

/-- `validate` of every variant.  `Float.validate` checks only that
`float(value)` succeeds - its `min`/`max` fields are never consulted
(`contracts.py` lines 136-141). -/
def TCvalidate : TC → JValue → Bool
  | .Str max min pattern, v =>
    match v with
    | .str s =>
      !((optIntTruthy max && decide ((s.data.length : Int) > max.getD 0))
        || (optIntTruthy min && decide ((s.data.length : Int) < min.getD 0))
        || (match pattern with
            | some f => !f s
            | none => false))
    | _ => false
  | .Int min max, v =>
    match intCoerce v with
    | some n =>
      !((match min with | some a => decide (n < a) | none => false)
        || (match max with | some b => decide (b < n) | none => false))
    | none => false
  | .Float _ _ _, v => (floatCoerce v).isSome
  | .Bool, v =>
    match v with
    | .bool _ => true
    | .str s => ["true", "false", "yes", "no", "1", "0"].contains (asciiLower s)
    | _ => false
  | .Code _, v =>
    match v with
    | .str _ => true
    | _ => false
  | .List_ item_type min_items max_items exact_items, v =>
    match v with
    | .arr l =>
      if (optIntTruthy exact_items && decide ((l.length : Int) ≠ exact_items.getD 0))
          || (optIntTruthy min_items && decide ((l.length : Int) < min_items.getD 0))
          || (optIntTruthy max_items && decide ((l.length : Int) > max_items.getD 0)) then
        false
      else
        match item_type with
        | some t => l.all (fun x => TCvalidate t x)
        | none => true
    | _ => false
  | .Optional_ inner, v =>
    match v with
    | .null => true
    | w => TCvalidate inner w
  | .Enum_ choices, v => choices.contains (pyStr v)

/-- Python `s[:k]` (a negative bound counts from the end, clamped at 0). -/
def takePyChars (cs : List Char) (k : Int) : List Char :=
  if 0 ≤ k then cs.take k.toNat else cs.take ((cs.length : Int) + k).toNat

/-- `Str.parse`: `str(value)`, truncated to `max-3` characters plus `"..."`
when a truthy `max` is exceeded. -/
def strParseFn (max : Option Int) (v : JValue) : String :=
  let s := pyStr v
  match max with
  | some m =>
    if m != 0 && decide ((s.data.length : Int) > m) then
      String.mk (takePyChars s.data (m - 3)) ++ "..."
    else s
  | none => s

/-- `re.sub(r"^```\w*\n?", "", s)`: one leading fence line. -/
def stripFenceOpen (cs : List Char) : List Char :=
  match cs with
  | '`' :: '`' :: '`' :: r =>
    let r1 := r.dropWhile isWordChar
    match r1 with
    | '\n' :: r2 => r2
    | _ => r1
  | _ => cs

/-- `re.sub(r"\n?```$", "", s)`: one trailing fence (the `$` anchor also
matches just before a final newline, which is then kept). -/
def stripFenceClose (cs : List Char) : List Char :=
  let rev := cs.reverse
  let (trail, rev2) : List Char × List Char :=
    match rev with
    | '\n' :: r => (['\n'], r)
    | r => ([], r)
  match rev2 with
  | '`' :: '`' :: '`' :: r3 =>
    (match r3 with
     | '\n' :: r5 => r5
     | _ => r3).reverse ++ trail
  | _ => cs

/-- `Code.parse`: strip one pair of fences, then `strip()`. -/
def codeStrip (s : String) : String :=
  String.mk (pyStripChars (stripFenceClose (stripFenceOpen s.data)))

/-- `re.split(r"[\n,]", s)` on characters. -/
def pySplitNlComma : List Char → List (List Char)
  | [] => [[]]
  | c :: rest =>
    if c = '\n' || c = ',' then [] :: pySplitNlComma rest
    else
      match pySplitNlComma rest with
      | h :: t => (c :: h) :: t
      | [] => [[c]]

/-- `parse` of every variant (the coercions; a `ValueError`/`TypeError`
escaping a coercion is a `PErr.pyexc`). -/
def TCparse : TC → JValue → Except PErr PyVal
  | .Str max _ _, v => .ok (.str (strParseFn max v))
  | .Int _ _, v =>
    match intCoerce v with
    | some n => .ok (.int n)
    | none => .error (.pyexc "ValueError: invalid literal for int()")
  | .Float _ _ precision, v =>
    match floatCoerce v with
    | some q =>
      .ok (.float (match precision with
        | some p => if p != 0 then pyRound q p else q
        | none => q))
    | none => .error (.pyexc "ValueError: could not convert string to float")
  | .Bool, v =>
    match v with
    | .bool b => .ok (.bool b)
    | .str s => .ok (.bool (["true", "yes", "1"].contains (asciiLower s)))
    | w => .ok (.bool (pyTruthy w))
  | .Code _, v => .ok (.str (codeStrip (pyStr v)))
  | .List_ item_type _ _ _, v =>
    let v1 : JValue :=
      match v with
      | .str s =>
        match jsonLoads s with
        | some j => j
        | none =>
          .arr ((((pySplitNlComma s.data).map pyStripChars).filter (· ≠ [])).map
            (fun p => .str (String.mk p)))
      | w => w
    (match item_type with
     | some t => do
       let l ← (pyIter v1).mapError .pyexc
       let vs ← l.mapM (fun x => TCparse t x)
       .ok (.list vs)
     | none => do
       let l ← (pyIter v1).mapError .pyexc
       .ok (.list (l.map jToPy)))
  | .Optional_ inner, v =>
    match v with
    | .null => .ok .none
    | .str s => if s = "null" || s = "" then .ok .none else TCparse inner (.str s)
    | w => TCparse inner w
  | .Enum_ _, v => .ok (.str (pyStr v))

/-!
### `OutputContract.parse_response` (contracts.py lines 373-408)

A schema is the ordered field list of the Python `dict`
(`schema : dict[str, TypeConstraint]` - its keys are therefore distinct),
and a decoded JSON object is the ordered key/value list of the decoded
`dict` (also distinct keys).  `processFields` is the per-field loop;
`parseResponse` adds the fence stripping and JSON decoding around it.
-/

/-- `isinstance(type_constraint, Optional_)`. -/
def isOptionalTC : TC → Bool
  | .Optional_ _ => true
  | _ => false

/-- The `for name, type_constraint in self.schema.items()` loop of
`parse_response`: a missing field yields `null` for an `Optional_`
constraint and a `ContractError` otherwise; a present field is validated
(failing with a `ContractError` naming the field, the expected description
and the offending value) and then coerced with `parse`. -/
def processFields : List (String × TC) → List (String × JValue) →
    Except PErr (List (String × PyVal))
  | [], _ => .ok []
  | (name, c) :: rest, data =>
    match data.lookup name with
    | none =>
      if isOptionalTC c then
        (processFields rest data).map (fun r => (name, PyVal.none) :: r)
      else
        .error (.contract ("Missing required field: " ++ name))
    | some v =>
      if TCvalidate c v then
        match TCparse c v with
        | .ok pv => (processFields rest data).map (fun r => (name, pv) :: r)
        | .error e => .error e
      else
        .error (.contract ("Field '" ++ name ++ "' failed validation: expected "
          ++ toPrompt c ++ ", got " ++ pyRepr v))

/-- `type(data).__name__` for the non-object error message. -/
def pyTypeName : JValue → String
  | .null => "NoneType"
  | .bool _ => "bool"
  | .int _ => "int"
  | .float _ => "float"
  | .str _ => "str"
  | .arr _ => "list"
  | .obj _ => "dict"

/-- `parse_response(response)`: trim, strip a markdown fence when the text
starts with one, decode as JSON (failure message detail of the Python
`JSONDecodeError` is not reproduced), require an object, then run the field
loop. -/
def parseResponse (schema : List (String × TC)) (response : String) :
    Except PErr (List (String × PyVal)) :=
  let r := pyStripChars response.data
  let r := if r.take 3 = ['`', '`', '`'] then stripFenceClose (stripFenceOpen r) else r
  match jsonLoads (String.mk r) with
  | none => .error (.contract "Response is not valid JSON")
  | some data =>
    match data with
    | .obj fields => processFields schema fields
    | v => .error (.contract ("Response must be a JSON object, got " ++ pyTypeName v))

/-!
### Derived observations used by the theorems
-/

/-- The personas along a chain, head first. -/
def AST.personasList : AST → List (Option String)
  | .mk _ _ _ _ _ _ _ none _ p _ => [p]
  | .mk _ _ _ _ _ _ _ (some c) _ p _ => p :: c.personasList

/-- Every node reachable through `chain` (the head excluded) has
`persona = None`. -/
def chainedAllNone (a : AST) : Bool :=
  a.personasList.tail.all Option.isNone

/-- The canonical spelling `" & w2 & w3 … & wn"` of the tail of an
`&`-separated identifier run (what follows the leading identifier). -/
def ampTail (ws : List (List Char)) : List Char :=
  (ws.map (fun w => ' ' :: '&' :: ' ' :: w)).flatten

/-!
## Supporting lemmas
-/

theorem dropWhile_head_false {P : Char → Bool} {l : List Char} {c : Char}
    {t : List Char} (h : l.dropWhile P = c :: t) : P c = false := by
  induction l with
  | nil => simp [List.dropWhile] at h
  | cons d l' ih =>
    by_cases hd : P d
    · rw [List.dropWhile_cons, if_pos hd] at h
      exact ih h
    · rw [List.dropWhile_cons, if_neg hd] at h
      cases h
      simpa using hd

theorem mem_pyStripChars {c : Char} {l : List Char} (h : c ∈ pyStripChars l) :
    c ∈ l := by
  unfold pyStripChars at h
  rw [List.mem_reverse] at h
  have h1 : c ∈ (l.dropWhile isPySpace).reverse :=
    (List.dropWhile_sublist _).mem h
  rw [List.mem_reverse] at h1
  exact (List.dropWhile_sublist _).mem h1

theorem stripChars_eq_self {r : List Char}
    (h1 : ∀ c, r.head? = some c → isPySpace c = false)
    (h2 : ∀ c, r.reverse.head? = some c → isPySpace c = false) :
    pyStripChars r = r := by
  unfold pyStripChars
  have e1 : r.dropWhile isPySpace = r := by
    cases r with
    | nil => rfl
    | cons c t => rw [List.dropWhile_cons, h1 c rfl]; simp
  rw [e1]
  cases hr : r.reverse with
  | nil =>
    simpa using congrArg List.reverse hr.symm
  | cons c t =>
    rw [List.dropWhile_cons, h2 c (by rw [hr]; rfl)]
    simp only [Bool.false_eq_true, if_false]
    rw [← hr, List.reverse_reverse]

theorem pyStripChars_idem (l : List Char) :
    pyStripChars (pyStripChars l) = pyStripChars l := by
  apply stripChars_eq_self
  · intro c hc
    unfold pyStripChars at hc
    rcases hXr : ((l.dropWhile isPySpace).reverse.dropWhile isPySpace).reverse with _ | ⟨c', t⟩
    · rw [hXr] at hc; cases hc
    · rw [hXr] at hc
      cases hc
      -- `c :: t` is a prefix of `l.dropWhile isPySpace`
      have hsplit : (l.dropWhile isPySpace).reverse.takeWhile isPySpace
          ++ (l.dropWhile isPySpace).reverse.dropWhile isPySpace
          = (l.dropWhile isPySpace).reverse :=
        List.takeWhile_append_dropWhile isPySpace _
      have h3 := congrArg List.reverse hsplit
      rw [List.reverse_append, List.reverse_reverse] at h3
      rw [hXr] at h3
      exact dropWhile_head_false (t := t ++ _) (by simpa using h3.symm)
  · intro c hc
    unfold pyStripChars at hc
    rw [List.reverse_reverse] at hc
    rcases hX : (l.dropWhile isPySpace).reverse.dropWhile isPySpace with _ | ⟨c', t⟩
    · rw [hX] at hc; cases hc
    · rw [hX] at hc
      cases hc
      exact dropWhile_head_false hX

theorem takeWhile_append_all {P : Char → Bool} {l1 : List Char}
    (l2 : List Char) (h : l1.all P = true) :
    (l1 ++ l2).takeWhile P = l1 ++ l2.takeWhile P := by
  induction l1 with
  | nil => simp
  | cons c t ih =>
    simp only [List.all_cons, Bool.and_eq_true] at h
    simp [List.takeWhile, h.1, ih h.2]

theorem dropWhile_append_all {P : Char → Bool} {l1 : List Char}
    (l2 : List Char) (h : l1.all P = true) :
    (l1 ++ l2).dropWhile P = l2.dropWhile P := by
  induction l1 with
  | nil => simp
  | cons c t ih =>
    simp only [List.all_cons, Bool.and_eq_true] at h
    simp [List.dropWhile, h.1, ih h.2]

theorem splitAux_mem_stripped :
    ∀ (cs : List Char) (prev : Option Char) (cur : List Char) (depth : Int)
      (inQ : Bool) (p : List Char),
      p ∈ splitAux prev cs cur depth inQ → pyStripChars p = p := by
  intro cs
  induction cs with
  | nil =>
    intro prev cur depth inQ p hp
    simp only [splitAux] at hp
    split at hp
    · cases hp
    · rcases List.mem_singleton.mp hp with rfl
      exact pyStripChars_idem cur
  | cons c rest ih =>
    intro prev cur depth inQ p hp
    simp only [splitAux] at hp
    split_ifs at hp
    · exact ih _ _ _ _ _ hp
    · exact ih _ _ _ _ _ hp
    · exact ih _ _ _ _ _ hp
    · rcases List.mem_cons.mp hp with rfl | hp'
      · exact pyStripChars_idem cur
      · exact ih _ _ _ _ _ hp'
    · exact ih _ _ _ _ _ hp

/-!
## The claims
-/

/-- C2: `_split_chain` never splits at a `>` that occurs inside a
double-quoted literal or while the bracket depth counter is nonzero - the
scanner step on `>` with the in-quotes flag set or a nonzero depth only
appends the character to the current segment - and in particular the
command `analyze "a > b" > fix` yields exactly the two segments
`analyze "a > b"` and `fix`, not three. -/
theorem c2_split_chain_respects_quotes_and_brackets :
    splitChain "analyze \"a > b\" > fix" = ["analyze \"a > b\"", "fix"] ∧
    ∀ (prev : Option Char) (cs cur : List Char) (depth : Int) (inQ : Bool),
      (inQ = true ∨ depth ≠ 0) →
      splitAux prev ('>' :: cs) cur depth inQ
        = splitAux (some '>') cs (cur ++ ['>']) depth inQ := by
  refine ⟨rfl, ?_⟩
  intro prev cs cur depth inQ h
  have h1 : ¬('>' = '"' ∧ prev ≠ some '\\') := by simp
  have h2 : ¬(('>' = '[' ∨ '>' = '\x7b' ∨ '>' = '(') ∧ inQ = false) := by
    rintro ⟨hc, -⟩; revert hc; decide
  have h3 : ¬(('>' = ']' ∨ '>' = '\x7d' ∨ '>' = ')') ∧ inQ = false) := by
    rintro ⟨hc, -⟩; revert hc; decide
  have h4 : ¬('>' = '>' ∧ depth = 0 ∧ inQ = false) := by
    rintro ⟨-, hd, hq⟩
    rcases h with h | h
    · rw [h] at hq; cases hq
    · exact h hd
  conv_lhs => rw [splitAux]
  rw [if_neg h1, if_neg h2, if_neg h3, if_neg h4]

/-- Witness for C2: a concrete `>` seen inside quotes does not split. -/
theorem c2_witness :
    splitAux none ['>'] [] 0 true = splitAux (some '>') [] ['>'] 0 true :=
  c2_split_chain_respects_quotes_and_brackets.2 none [] [] 0 true (Or.inl rfl)

/-- C4 (code bug): `Float.validate` coerces but never checks `min`/`max` -
for every `Float` constraint it returns exactly "does `float(value)`
succeed", so the out-of-range value `5` passes a `Float(min=1, max=2)`
constraint. -/
theorem c4_float_validate_no_range_check :
    TCvalidate (TC.Float (some 1) (some 2) none) (JValue.int 5) = true ∧
    ∀ (min max : Option Rat) (precision : Option Int) (v : JValue),
      TCvalidate (TC.Float min max precision) v = (floatCoerce v).isSome :=
  ⟨rfl, fun _ _ _ _ => rfl⟩

/-- Counterexample for C5: the claim says empty segments are dropped, but an
intermediate split appends the stripped current segment unconditionally, so
`a > > b` yields three segments, the middle one empty. -/
theorem c5_counterexample :
    splitChain "a > > b" = ["a", "", "b"] ∧ "" ∈ splitChain "a > > b" := by
  refine ⟨rfl, ?_⟩
  rw [show splitChain "a > > b" = ["a", "", "b"] from rfl]
  simp

/-- C5 as amended: every segment returned by `_split_chain` is trimmed of
leading and trailing whitespace, but only a trailing remainder that is
empty after trimming is dropped - an empty segment produced by consecutive
chain operators (as in `a > > b`) is kept. -/
theorem c5_segments_trimmed :
    (∀ (s seg : String), seg ∈ splitChain s → pyStrip seg = seg) ∧
    splitChain "a > > b" = ["a", "", "b"] := by
  refine ⟨?_, rfl⟩
  intro s seg hseg
  unfold splitChain splitChainChars at hseg
  rcases List.mem_map.mp hseg with ⟨p, hp, rfl⟩
  have hps : pyStripChars p = p := splitAux_mem_stripped _ _ _ _ _ _ hp
  show String.mk (pyStripChars p) = String.mk p
  rw [hps]

/-- Witness for C5: a segment of a concrete command is its own trim. -/
theorem c5_witness : pyStrip "fix" = "fix" :=
  c5_segments_trimmed.1 "analyze > fix" "fix" (by decide)

/-- C6: `_parse_single` fails (with the `ParseError` message) exactly when
the segment does not begin with a word character - equivalently, when the
maximal leading word-character run is empty, which covers the empty
segment - and otherwise returns an AST whose action is exactly that maximal
run; no action vocabulary is consulted (the result is the same for any
leading word run). -/
theorem c6_parse_single_action (cs : List Char) :
    ((parseSingleChars cs).map AST.action =
      if cs.takeWhile isWordChar = [] then
        Except.error ("Could not find action in: " ++ String.mk cs)
      else Except.ok (String.mk (cs.takeWhile isWordChar))) ∧
    (cs.takeWhile isWordChar = [] ↔
      ∀ c rest, cs = c :: rest → isWordChar c = false) := by
  constructor
  · by_cases h : cs.takeWhile isWordChar = []
    · simp [parseSingleChars, h, Except.map]
    · simp [parseSingleChars, h, AST.action, Except.map]
  · cases cs with
    | nil => simp
    | cons c rest =>
      constructor
      · intro h c1 rest1 he
        cases he
        by_contra hcontra
        rw [Bool.not_eq_false] at hcontra
        rw [List.takeWhile_cons, if_pos hcontra] at h
        cases h
      · intro h
        rw [List.takeWhile_cons, h c rest rfl]
        simp

/-- C7: `Optional_.parse` maps `None`, the string `"null"` and the empty
string to `None`, delegates every other value to the inner type's `parse`,
and over an unconstrained `Str` every other string parses to itself. -/
theorem c7_optional_parse :
    (∀ inner : TC,
      TCparse (.Optional_ inner) JValue.null = .ok PyVal.none ∧
      TCparse (.Optional_ inner) (.str "null") = .ok PyVal.none ∧
      TCparse (.Optional_ inner) (.str "") = .ok PyVal.none) ∧
    (∀ (inner : TC) (v : JValue), v ≠ .null →
      (∀ s, v = .str s → s ≠ "null" ∧ s ≠ "") →
      TCparse (.Optional_ inner) v = TCparse inner v) ∧
    (∀ s : String, s ≠ "null" → s ≠ "" →
      TCparse (.Optional_ (.Str none none none)) (.str s) = .ok (.str s)) := by
  refine ⟨fun inner => ⟨rfl, rfl, rfl⟩, ?_, ?_⟩
  · intro inner v hnull hstr
    cases v with
    | null => exact absurd rfl hnull
    | str s =>
      have hs := hstr s rfl
      simp [TCparse, hs.1, hs.2]
    | bool b => rfl
    | int i => rfl
    | float q => rfl
    | arr l => rfl
    | obj l => rfl
  · intro s h1 h2
    simp [TCparse, h1, h2, strParseFn, pyStr]

/-- Witness for C7: a concrete ordinary string under `Optional(String)`
parses to itself, and a concrete non-null value delegates. -/
theorem c7_witness :
    TCparse (.Optional_ (.Str none none none)) (.str "maybe") = .ok (.str "maybe") ∧
    TCparse (.Optional_ .Bool) (.int 7) = TCparse .Bool (.int 7) :=
  ⟨c7_optional_parse.2.2 "maybe" (by decide) (by decide),
   c7_optional_parse.2.1 .Bool (.int 7) (by simp) (by simp)⟩

/-- C9: for every `Str` constraint whose `max` is set and at least 3,
`Str.parse` (which `parse_response` applies even to values that only just
validated) returns a string of length at most `max`: an over-long
`str(value)` is cut to `max-3` characters plus the 3-character `"..."`
marker, and this is exactly what `TCparse` returns. -/
theorem c9_str_parse_bounded (m : Int) (mn : Option Int)
    (pat : Option (String → Bool)) (v : JValue) (hm : 3 ≤ m) :
    TCparse (.Str (some m) mn pat) v = .ok (.str (strParseFn (some m) v)) ∧
    ((strParseFn (some m) v).data.length : Int) ≤ m := by
  refine ⟨rfl, ?_⟩
  have hdef : strParseFn (some m) v =
      if ((m != 0) && decide (((pyStr v).data.length : Int) > m)) then
        String.mk (takePyChars (pyStr v).data (m - 3)) ++ "..."
      else pyStr v := rfl
  rw [hdef]
  by_cases hc : ((pyStr v).data.length : Int) > m
  · have hcond : ((m != 0) && decide (((pyStr v).data.length : Int) > m)) = true := by
      simp only [Bool.and_eq_true, bne_iff_ne, ne_eq, decide_eq_true_eq]
      exact ⟨by omega, hc⟩
    rw [if_pos hcond]
    show (((takePyChars (pyStr v).data (m - 3)) ++ ['.', '.', '.']).length : Int) ≤ m
    have h1 : takePyChars (pyStr v).data (m - 3)
        = (pyStr v).data.take (m - 3).toNat := by
      unfold takePyChars
      rw [if_pos (by omega)]
    rw [h1, List.length_append]
    have h3 : ((m - 3).toNat : Int) = m - 3 := Int.toNat_of_nonneg (by omega)
    have h2 : (((pyStr v).data.take (m - 3).toNat).length : Int) ≤ m - 3 := by
      have h4 : (((pyStr v).data.take (m - 3).toNat).length : Int)
          ≤ ((m - 3).toNat : Int) := by
        exact_mod_cast List.length_take_le _ _
      rw [h3] at h4
      exact h4
    have h5 : (['.', '.', '.'] : List Char).length = 3 := rfl
    rw [h5]
    push_cast
    omega
  · have hng : ¬((m != 0 && decide (((pyStr v).data.length : Int) > m)) = true) := by
      simp only [Bool.and_eq_true, bne_iff_ne, ne_eq, decide_eq_true_eq, not_and]
      intro _
      omega
    rw [if_neg hng]
    omega

/-- Witness for C9: a 10-character string under `max=5` parses to a
5-character result. -/
theorem c9_witness :
    ((strParseFn (some 5) (JValue.str "hellohello")).data.length : Int) ≤ 5 :=
  (c9_str_parse_bounded 5 none none (JValue.str "hellohello") (by norm_num)).2

/-- C10: bounds set to `0` are never enforced, because the code tests them
for truthiness: a `List_` whose `exact_items`/`min_items`/`max_items` are
each `None` or `0` validates lists of every length, and a `Str` whose
`max`/`min` are each `None` or `0` accepts strings of any length and its
`parse` never truncates. -/
theorem c10_zero_bounds_unenforced :
    (∀ (mi ma ex : Option Int),
      (mi = none ∨ mi = some 0) → (ma = none ∨ ma = some 0) →
      (ex = none ∨ ex = some 0) →
      ∀ l : List JValue, TCvalidate (.List_ none mi ma ex) (.arr l) = true) ∧
    (∀ (mx mn : Option Int),
      (mx = none ∨ mx = some 0) → (mn = none ∨ mn = some 0) →
      (∀ s : String, TCvalidate (.Str mx mn none) (.str s) = true) ∧
      (∀ v : JValue, TCparse (.Str mx mn none) v = .ok (.str (pyStr v)))) := by
  constructor
  · rintro mi ma ex (rfl | rfl) (rfl | rfl) (rfl | rfl) l <;>
      simp [TCvalidate, optIntTruthy]
  · rintro mx mn (rfl | rfl) (rfl | rfl) <;>
      exact ⟨fun s => by simp [TCvalidate, optIntTruthy],
        fun v => by simp [TCparse, strParseFn]⟩

theorem processFields_append (a b : List (String × TC))
    (d : List (String × JValue)) :
    processFields (a ++ b) d
      = (processFields a d).bind
          (fun r => (processFields b d).map (fun r2 => r ++ r2)) := by
  induction a with
  | nil =>
    rcases h : processFields b d with e | r <;>
      simp [processFields, h, Except.bind, Except.map]
  | cons hd rest ih =>
    obtain ⟨name, c⟩ := hd
    cases hl : d.lookup name with
    | none =>
      by_cases hopt : isOptionalTC c = true
      · simp only [List.cons_append, processFields, hl, if_pos hopt]
        rcases h1 : processFields rest d with e | r1 <;>
          rcases h2 : processFields b d with e2 | r2 <;>
            simp [ih, h1, h2, Except.bind, Except.map]
      · simp only [List.cons_append, processFields, hl, if_neg hopt]
        simp [Except.bind]
    | some v =>
      by_cases hv : TCvalidate c v = true
      · cases hp : TCparse c v with
        | error e =>
          simp only [List.cons_append, processFields, hl, if_pos hv, hp]
          simp [Except.bind]
        | ok pv =>
          simp only [List.cons_append, processFields, hl, if_pos hv, hp]
          rcases h1 : processFields rest d with e | r1 <;>
            rcases h2 : processFields b d with e2 | r2 <;>
              simp [ih, h1, h2, Except.bind, Except.map]
      · simp only [List.cons_append, processFields, hl, if_neg hv]
        simp [Except.bind]

theorem processFields_keys :
    ∀ (schema : List (String × TC)) (data : List (String × JValue))
      (res : List (String × PyVal)),
      processFields schema data = .ok res →
      res.map Prod.fst = schema.map Prod.fst := by
  intro schema
  induction schema with
  | nil =>
    intro data res h
    simp only [processFields] at h
    cases h
    rfl
  | cons hd rest ih =>
    obtain ⟨name, c⟩ := hd
    intro data res h
    cases hl : data.lookup name with
    | none =>
      simp only [processFields, hl] at h
      by_cases hopt : isOptionalTC c = true
      · rw [if_pos hopt] at h
        cases hr : processFields rest data with
        | error e => rw [hr] at h; simp [Except.map] at h
        | ok r1 =>
          rw [hr] at h
          simp only [Except.map] at h
          cases h
          simp [ih data r1 hr]
      · rw [if_neg hopt] at h
        simp at h
    | some v =>
      simp only [processFields, hl] at h
      by_cases hv : TCvalidate c v = true
      · rw [if_pos hv] at h
        cases hp : TCparse c v with
        | error e => rw [hp] at h; simp at h
        | ok pv =>
          rw [hp] at h
          cases hr : processFields rest data with
          | error e => rw [hr] at h; simp [Except.map] at h
          | ok r1 =>
            rw [hr] at h
            simp only [Except.map] at h
            cases h
            simp [ih data r1 hr]
      · rw [if_neg hv] at h
        simp at h

theorem lookup_append_right {β : Type} (name : String)
    (l1 l2 : List (String × β)) (h : name ∉ l1.map Prod.fst) :
    (l1 ++ l2).lookup name = l2.lookup name := by
  induction l1 with
  | nil => rfl
  | cons hd t ih =>
    obtain ⟨k, v⟩ := hd
    simp only [List.map_cons, List.mem_cons] at h
    push_neg at h
    have hne : (name == k) = false := by
      simpa using h.1
    simp only [List.cons_append, List.lookup, hne]
    exact ih h.2

theorem processFields_congr_lookup :
    ∀ (schema : List (String × TC)) (data data' : List (String × JValue)),
      (∀ p ∈ schema, data.lookup p.1 = data'.lookup p.1) →
      processFields schema data = processFields schema data' := by
  intro schema
  induction schema with
  | nil => intro data data' _; rfl
  | cons hd rest ih =>
    obtain ⟨name, c⟩ := hd
    intro data data' h
    have hhd : data.lookup name = data'.lookup name := h (name, c) (by simp)
    have hrest := ih data data' (fun p hp => h p (by simp [hp]))
    simp only [processFields, ← hhd, hrest]

theorem personaMatch_eq_none {cs : List Char}
    (h : cs.all (· ≠ '@') = true) : personaMatch cs = none := by
  cases cs with
  | nil => rfl
  | cons c rest =>
    have hc : c ≠ '@' := by
      simp only [List.all_cons, Bool.and_eq_true, decide_eq_true_eq] at h
      exact h.1
    unfold personaMatch
    split
    · rename_i heq
      injection heq with h1 _
      exact absurd h1 hc
    · rfl

theorem splitAux_mem_chars :
    ∀ (cs : List Char) (prev : Option Char) (cur : List Char) (depth : Int)
      (inQ : Bool) (p : List Char) (c : Char),
      p ∈ splitAux prev cs cur depth inQ → c ∈ p → c ∈ cur ∨ c ∈ cs := by
  intro cs
  induction cs with
  | nil =>
    intro prev cur depth inQ p c hp hcp
    simp only [splitAux] at hp
    split at hp
    · cases hp
    · rcases List.mem_singleton.mp hp with rfl
      exact Or.inl (mem_pyStripChars hcp)
  | cons c0 rest ih =>
    intro prev cur depth inQ p c hp hcp
    have step : ∀ (d : Int) (q : Bool),
        p ∈ splitAux (some c0) rest (cur ++ [c0]) d q → c ∈ cur ∨ c ∈ c0 :: rest := by
      intro d q hp'
      rcases ih (some c0) (cur ++ [c0]) d q p c hp' hcp with h | h
      · rcases List.mem_append.mp h with h' | h'
        · exact Or.inl h'
        · rcases List.mem_singleton.mp h' with rfl
          exact Or.inr (List.mem_cons_self _ _)
      · exact Or.inr (List.mem_cons_of_mem _ h)
    simp only [splitAux] at hp
    split_ifs at hp
    · exact step _ _ hp
    · exact step _ _ hp
    · exact step _ _ hp
    · rcases List.mem_cons.mp hp with rfl | hp'
      · exact Or.inl (mem_pyStripChars hcp)
      · rcases ih (some c0) [] _ _ p c hp' hcp with h | h
        · cases h
        · exact Or.inr (List.mem_cons_of_mem _ h)
    · exact step _ _ hp

theorem joinGt_mem {c : Char} :
    ∀ (parts : List (List Char)), c ∈ joinGt parts →
      c = ' ' ∨ c = '>' ∨ ∃ p ∈ parts, c ∈ p := by
  intro parts
  induction parts with
  | nil => intro h; cases h
  | cons p ps ih =>
    cases ps with
    | nil =>
      intro h
      exact Or.inr (Or.inr ⟨p, by simp, h⟩)
    | cons q qs =>
      intro h
      simp only [joinGt] at h
      rcases List.mem_append.mp h with h' | h'
      · exact Or.inr (Or.inr ⟨p, by simp, h'⟩)
      · simp only [List.mem_cons] at h'
        rcases h' with rfl | rfl | rfl | h'
        · exact Or.inl rfl
        · exact Or.inr (Or.inl rfl)
        · exact Or.inl rfl
        · rcases ih h' with h'' | h'' | ⟨p', hp', hcp'⟩
          · exact Or.inl h''
          · exact Or.inr (Or.inl h'')
          · exact Or.inr (Or.inr ⟨p', List.mem_cons_of_mem _ hp', hcp'⟩)

theorem parseSingleChars_fields {cs : List Char} {ast : AST}
    (h : parseSingleChars cs = .ok ast) :
    ast.chain = none ∧ ast.persona = none := by
  unfold parseSingleChars at h
  by_cases ha : cs.takeWhile isWordChar = []
  · rw [if_pos ha] at h
    cases h
  · rw [if_neg ha] at h
    injection h with h'
    subst h'
    exact ⟨rfl, rfl⟩

theorem parseFuel_personas_none :
    ∀ (fuel : Nat) (cs : List Char), cs.all (· ≠ '@') = true →
      ∀ ast, parseFuel fuel cs = .ok ast →
        ast.personasList.all Option.isNone = true := by
  intro fuel
  induction fuel with
  | zero => intro cs h ast hast; cases hast
  | succ fuel ih =>
    intro cs h ast hast
    have hstrip : (pyStripChars cs).all (· ≠ '@') = true := by
      rw [List.all_eq_true] at h ⊢
      exact fun c hc => h c (mem_pyStripChars hc)
    have hpm : personaMatch (pyStripChars cs) = none := personaMatch_eq_none hstrip
    simp only [parseFuel, hpm, Option.map_none'] at hast
    cases hsp : splitChainChars (pyStripChars cs) with
    | nil =>
      simp only [hsp] at hast
      cases hps : parseSingleChars (pyStripChars cs) with
      | error e => rw [hps] at hast; cases hast
      | ok a =>
        rw [hps] at hast
        simp only [Except.bind, pure, Except.pure] at hast
        injection hast with h'
        subst h'
        obtain ⟨hch, -⟩ := parseSingleChars_fields hps
        cases a
        simp only [AST.chain] at hch
        subst hch
        rfl
    | cons p0 ps =>
      cases ps with
      | nil =>
        simp only [hsp] at hast
        cases hps : parseSingleChars (pyStripChars cs) with
        | error e => rw [hps] at hast; cases hast
        | ok a =>
          rw [hps] at hast
          simp only [Except.bind, pure, Except.pure] at hast
          injection hast with h'
          subst h'
          obtain ⟨hch, -⟩ := parseSingleChars_fields hps
          cases a
          simp only [AST.chain] at hch
          subst hch
          rfl
      | cons p1 rest =>
        simp only [hsp] at hast
        cases hps : parseSingleChars p0 with
        | error e => rw [hps] at hast; cases hast
        | ok a =>
          rw [hps] at hast
          cases hch : parseFuel fuel (joinGt (p1 :: rest)) with
          | error e =>
            rw [hch] at hast
            cases hast
          | ok chAst =>
            rw [hch] at hast
            simp only [Except.bind, pure, Except.pure] at hast
            injection hast with h'
            subst h'
            have hjoin : (joinGt (p1 :: rest)).all (· ≠ '@') = true := by
              rw [List.all_eq_true]
              intro c hc
              rcases joinGt_mem _ hc with rfl | rfl | ⟨p, hp, hcp⟩
              · decide
              · decide
              · have hmem : p ∈ splitAux none (pyStripChars cs) [] 0 false := by
                  rw [show splitAux none (pyStripChars cs) [] 0 false
                      = splitChainChars (pyStripChars cs) from rfl, hsp]
                  exact List.mem_cons_of_mem _ hp
                rcases splitAux_mem_chars _ _ _ _ _ _ _ hmem hcp with h' | h'
                · cases h'
                · have := (List.all_eq_true.mp hstrip) c h'
                  simpa using this
            have hrec := ih (joinGt (p1 :: rest)) hjoin chAst hch
            cases a
            simp only [AST.setPersona, AST.setChain, AST.personasList]
            simp [hrec]

theorem isWordChar_not_space {c : Char} (h : isWordChar c = true) :
    isPySpace c = false := by
  by_contra hs
  rw [Bool.not_eq_false] at hs
  simp only [isPySpace, Bool.or_eq_true, decide_eq_true_eq] at hs
  rcases hs with ((((rfl | rfl) | rfl) | rfl) | rfl) | rfl <;> exact absurd h (by decide)

theorem isWordChar_ne_amp {c : Char} (h : isWordChar c = true) : c ≠ '&' := by
  rintro rfl; exact absurd h (by decide)

theorem isWordChar_ne_quote {c : Char} (h : isWordChar c = true) : c ≠ '"' := by
  rintro rfl; exact absurd h (by decide)

theorem isWordChar_ne_brace {c : Char} (h : isWordChar c = true) : c ≠ '\x7b' := by
  rintro rfl; exact absurd h (by decide)

theorem ampGo_scan_skip {w : List Char} (r : List Char)
    (h : ∀ c ∈ w, c ≠ '&') :
    ampGo (w ++ r) .scan = ampGo r .scan := by
  induction w with
  | nil => rfl
  | cons c t ih =>
    have hc : c ≠ '&' := h c (List.mem_cons_self _ _)
    show ampGo (c :: (t ++ r)) .scan = ampGo r .scan
    rw [show ampGo (c :: (t ++ r)) .scan
        = if c = '&' then ampGo (t ++ r) (.sp1 ['&']) else ampGo (t ++ r) .scan
      from rfl]
    rw [if_neg hc]
    exact ih (fun c' hc' => h c' (List.mem_cons_of_mem _ hc'))

theorem ampGo_word_run {w : List Char} (r spanRev : List Char)
    (h : w.all isWordChar = true) :
    ampGo (w ++ r) (.word spanRev) = ampGo r (.word (w.reverse ++ spanRev)) := by
  induction w generalizing spanRev with
  | nil => simp
  | cons c t ih =>
    simp only [List.all_cons, Bool.and_eq_true] at h
    show ampGo (c :: (t ++ r)) (.word spanRev) = _
    rw [show ampGo (c :: (t ++ r)) (.word spanRev)
        = if isWordChar c then ampGo (t ++ r) (.word (c :: spanRev))
          else if isPySpace c then ampGo (t ++ r) (.tail spanRev [c])
          else if c = '&' then ampGo (t ++ r) (.tail2 spanRev [c])
          else some spanRev.reverse from rfl]
    rw [if_pos h.1, ih _ h.2]
    simp

theorem ampGo_ampTail :
    ∀ (ws : List (List Char)) (spanRev : List Char),
      (∀ w ∈ ws, w ≠ [] ∧ w.all isWordChar = true) →
      ampGo (ampTail ws) (.word spanRev) = some (spanRev.reverse ++ ampTail ws) := by
  intro ws
  induction ws with
  | nil => intro spanRev _; simp [ampTail, ampGo]
  | cons w ws' ih =>
    intro spanRev h
    obtain ⟨hw, hwall⟩ := h w (List.mem_cons_self _ _)
    obtain ⟨c, w'', rfl⟩ : ∃ c w'', w = c :: w'' := by
      cases w with
      | nil => exact absurd rfl hw
      | cons c w'' => exact ⟨c, w'', rfl⟩
    simp only [List.all_cons, Bool.and_eq_true] at hwall
    have htail : ampTail ((c :: w'') :: ws')
        = ' ' :: '&' :: ' ' :: c :: (w'' ++ ampTail ws') := by
      simp [ampTail]
    rw [htail]
    rw [show ampGo (' ' :: '&' :: ' ' :: c :: (w'' ++ ampTail ws')) (.word spanRev)
        = ampGo ('&' :: ' ' :: c :: (w'' ++ ampTail ws')) (.tail spanRev [' ']) from rfl]
    rw [show ampGo ('&' :: ' ' :: c :: (w'' ++ ampTail ws')) (.tail spanRev [' '])
        = ampGo (' ' :: c :: (w'' ++ ampTail ws')) (.tail2 spanRev ['&', ' ']) from rfl]
    rw [show ampGo (' ' :: c :: (w'' ++ ampTail ws')) (.tail2 spanRev ['&', ' '])
        = ampGo (c :: (w'' ++ ampTail ws')) (.tail2 spanRev [' ', '&', ' ']) from rfl]
    rw [show ampGo (c :: (w'' ++ ampTail ws')) (.tail2 spanRev [' ', '&', ' '])
        = if isPySpace c then ampGo (w'' ++ ampTail ws') (.tail2 spanRev (c :: [' ', '&', ' ']))
          else if isWordChar c then
            ampGo (w'' ++ ampTail ws') (.word (c :: ([' ', '&', ' '] ++ spanRev)))
          else some spanRev.reverse from rfl]
    rw [if_neg (by simp [isWordChar_not_space hwall.1]), if_pos hwall.1]
    rw [ampGo_word_run _ _ hwall.2]
    rw [ih _ (fun x hx => h x (List.mem_cons_of_mem _ hx))]
    simp [htail, List.reverse_append, List.append_assoc]

/-- Counterexample for C3: `parse` applies the `@as` persona regex again on
every recursion step, so a chained part that is itself an `@as` block gives
its persona to a *chained* node: parsing
`write "x" > @as "p" {fix}` yields personas `[None, "p"]` along the chain,
and the chained node's persona is not `None`. -/
theorem c3_counterexample :
    (parseWith 9 "write \"x\" > @as \"p\" \x7bfix\x7d").map AST.personasList
      = .ok [none, some "p"] ∧
    (parseWith 9 "write \"x\" > @as \"p\" \x7bfix\x7d").map chainedAllNone
      = .ok false :=
  ⟨rfl, rfl⟩

/-- C3 as amended: for every command string that contains no `@` character
(so no chained part can match the `@as` persona pattern), every node
reachable through the `chain` field of the parse result has persona `None`;
the theorem holds for every fuel bound of the embedded recursion. -/
theorem c3_chained_nodes_have_no_persona :
    ∀ (fuel : Nat) (cmd : String),
      cmd.data.all (· ≠ '@') = true →
      (parseFuel fuel cmd.data).map chainedAllNone
        = (parseFuel fuel cmd.data).map (fun _ => true) := by
  intro fuel cmd h
  cases hp : parseFuel fuel cmd.data with
  | error e => rfl
  | ok ast =>
    have hall := parseFuel_personas_none fuel cmd.data h ast hp
    simp only [Except.map]
    congr 1
    unfold chainedAllNone
    cases hl : ast.personasList with
    | nil => rfl
    | cons x xs =>
      rw [hl] at hall
      simp only [List.all_cons, Bool.and_eq_true] at hall
      simpa using hall.2

/-- Witness for C3 (amended): a concrete chained `@`-free command parses
with all chained personas `None`. -/
theorem c3_witness :
    (parseFuel 5 "write \"x\" > fix".data).map chainedAllNone
      = Except.ok true :=
  (c3_chained_nodes_have_no_persona 5 "write \"x\" > fix" (by decide)).trans rfl

/-- C1: the field loop of `OutputContract.parse_response` processes schema
fields in schema order over the decoded object: (i) when every earlier
field has been processed successfully, a field name absent from the object
raises `ContractError("Missing required field: <name>")` unless its
constraint is an `Optional_` variant; (ii) an absent `Optional_` field is
bound to null in the result and processing continues; (iii) the outcome
depends only on the object's values at schema field names, so extra keys
are silently ignored and never cause an error; (iv) on success the result's
keys are exactly the schema's keys in schema order, so extra keys never
appear in the result. -/
theorem c1_parse_response_field_loop :
    (∀ (pre post : List (String × TC)) (name : String) (c : TC)
       (data : List (String × JValue)) (r : List (String × PyVal)),
      processFields pre data = .ok r →
      data.lookup name = none →
      isOptionalTC c = false →
      processFields (pre ++ (name, c) :: post) data
        = .error (.contract ("Missing required field: " ++ name))) ∧
    (∀ (pre post : List (String × TC)) (inner : TC) (name : String)
       (data : List (String × JValue)) (res : List (String × PyVal)),
      name ∉ pre.map Prod.fst →
      data.lookup name = none →
      processFields (pre ++ (name, TC.Optional_ inner) :: post) data = .ok res →
      res.lookup name = some PyVal.none) ∧
    (∀ (schema : List (String × TC)) (data data' : List (String × JValue)),
      (∀ p ∈ schema, data.lookup p.1 = data'.lookup p.1) →
      processFields schema data = processFields schema data') ∧
    (∀ (schema : List (String × TC)) (data : List (String × JValue))
       (res : List (String × PyVal)),
      processFields schema data = .ok res →
      res.map Prod.fst = schema.map Prod.fst) := by
  refine ⟨?_, ?_, processFields_congr_lookup, processFields_keys⟩
  · intro pre post name c data r hpre hlk hopt
    rw [processFields_append, hpre]
    simp only [Except.bind]
    simp [processFields, hlk, hopt, Except.map]
  · intro pre post inner name data res hnm hlk hres
    rw [processFields_append] at hres
    cases h1 : processFields pre data with
    | error e => rw [h1] at hres; simp [Except.bind] at hres
    | ok r1 =>
      rw [h1] at hres
      simp only [Except.bind] at hres
      simp only [processFields, hlk, isOptionalTC, if_true] at hres
      cases h2 : processFields post data with
      | error e => rw [h2] at hres; simp [Except.map] at hres
      | ok r2 =>
        rw [h2] at hres
        simp only [Except.map, Except.ok.injEq] at hres
        subst hres
        rw [lookup_append_right name r1 _
          ((processFields_keys pre data r1 h1) ▸ hnm)]
        simp [List.lookup]

/-- Witness for C1: concrete instances of all four parts. -/
theorem c1_witness :
    processFields [("req", TC.Str none none none)] []
      = .error (.contract "Missing required field: req") ∧
    List.lookup "opt" [("opt", PyVal.none)] = some PyVal.none ∧
    processFields [("a", TC.Bool)] [("a", .bool true), ("extra", .int 3)]
      = processFields [("a", TC.Bool)] [("a", .bool true)] ∧
    List.map Prod.fst [("a", PyVal.bool true)] = List.map Prod.fst [("a", TC.Bool)] := by
  refine ⟨?_, ?_, ?_, ?_⟩
  · exact c1_parse_response_field_loop.1 [] [] "req" (TC.Str none none none)
      [] [] rfl rfl rfl
  · exact c1_parse_response_field_loop.2.1 [] [] (TC.Str none none none)
      "opt" [] [("opt", PyVal.none)] (by simp) rfl rfl
  · exact c1_parse_response_field_loop.2.2.1 [("a", TC.Bool)]
      [("a", .bool true), ("extra", .int 3)] [("a", .bool true)]
      (by intro p hp; simp only [List.mem_singleton] at hp; subst hp; rfl)
  · exact c1_parse_response_field_loop.2.2.2 [("a", TC.Bool)]
      [("a", .bool true)] [("a", PyVal.bool true)] rfl

/-- Witness for C10: zero bounds at concrete over-long inputs. -/
theorem c10_witness :
    TCvalidate (.List_ none (some 0) (some 0) (some 0))
      (.arr [.int 1, .int 2, .int 3]) = true ∧
    TCvalidate (.Str (some 0) (some 0) none) (.str "a rather long string") = true ∧
    TCparse (.Str (some 0) none none) (.str "xyz") = .ok (.str "xyz") :=
  ⟨c10_zero_bounds_unenforced.1 _ _ _ (Or.inr rfl) (Or.inr rfl) (Or.inr rfl) _,
   (c10_zero_bounds_unenforced.2 (some 0) (some 0) (Or.inr rfl) (Or.inr rfl)).1 _,
   (c10_zero_bounds_unenforced.2 (some 0) none (Or.inr rfl) (Or.inl rfl)).2 (.str "xyz")⟩

/-!
## C8: the parallel list (src/ailang/parser.py lines 148-152)

`group(0)` of `re.search(r"&\s*(\w+(?:\s*&\s*\w+)*)", rest)` starts at the
first `&`, so `group(0).split("&")` never contains the identifier written
before that `&`.
-/

theorem ampTail_ne_nil {w : List Char} (ws : List (List Char)) :
    ampTail (w :: ws) ≠ [] := by
  simp [ampTail]

theorem ampTail_reverse_head :
    ∀ (ws : List (List Char)), ws ≠ [] →
      (∀ w ∈ ws, w ≠ [] ∧ w.all isWordChar = true) →
      ∃ c, (ampTail ws).reverse.head? = some c ∧ isWordChar c = true := by
  intro ws
  induction ws with
  | nil => intro h; exact absurd rfl h
  | cons w ws' ih =>
    intro _ h
    cases ws' with
    | nil =>
      obtain ⟨hw, hwall⟩ := h w (List.mem_cons_self _ _)
      obtain ⟨c, t, hrev⟩ : ∃ c t, w.reverse = c :: t := by
        cases hr : w.reverse with
        | nil => exact absurd (by simpa using hr) hw
        | cons c t => exact ⟨c, t, rfl⟩
      refine ⟨c, ?_, ?_⟩
      · simp [ampTail, hrev]
      · have hm : c ∈ w := by
          rw [← List.mem_reverse, hrev]; exact List.mem_cons_self _ _
        exact List.all_eq_true.mp hwall _ hm
    | cons w2 ws'' =>
      obtain ⟨c, hc, hcw⟩ := ih (by simp) (fun x hx => h x (List.mem_cons_of_mem _ hx))
      refine ⟨c, ?_, hcw⟩
      have he : ampTail (w :: w2 :: ws'')
          = (' ' :: '&' :: ' ' :: w) ++ ampTail (w2 :: ws'') := by
        simp [ampTail]
      rw [he, List.reverse_append]
      cases hr : (ampTail (w2 :: ws'')).reverse with
      | nil => exact absurd (by simpa using hr) (ampTail_ne_nil _)
      | cons e t =>
        rw [hr] at hc
        simp only [List.head?_cons, Option.some.injEq] at hc
        subst hc
        rfl

theorem word_list_edges {w : List Char} (hwall : w.all isWordChar = true) :
    (∀ c, w.head? = some c → isPySpace c = false) ∧
    (∀ c, w.reverse.head? = some c → isPySpace c = false) := by
  constructor
  · intro c hc
    cases w with
    | nil => simp at hc
    | cons d t =>
      simp only [List.head?_cons, Option.some.injEq] at hc
      subst hc
      simp only [List.all_cons, Bool.and_eq_true] at hwall
      exact isWordChar_not_space hwall.1
  · intro c hc
    have hm : c ∈ w.reverse := by
      cases hr : w.reverse with
      | nil => rw [hr] at hc; simp at hc
      | cons d t =>
        rw [hr] at hc
        simp only [List.head?_cons, Option.some.injEq] at hc
        subst hc
        exact List.mem_cons_self _ _
    rw [List.mem_reverse] at hm
    exact isWordChar_not_space (List.all_eq_true.mp hwall _ hm)

theorem pyStripChars_cons_space (X : List Char) :
    pyStripChars (' ' :: X) = pyStripChars X := by
  unfold pyStripChars
  rw [List.dropWhile_cons, if_pos (by decide)]

theorem strip_space_wrap {X : List Char}
    (h1 : ∀ c, X.head? = some c → isPySpace c = false)
    (h2 : ∀ c, X.reverse.head? = some c → isPySpace c = false) :
    pyStripChars (' ' :: X) = X ∧ pyStripChars (' ' :: (X ++ [' '])) = X := by
  constructor
  · rw [pyStripChars_cons_space]
    exact stripChars_eq_self h1 h2
  · rw [pyStripChars_cons_space]
    cases X with
    | nil => rfl
    | cons c t =>
      have hc : isPySpace c = false := h1 c rfl
      obtain ⟨c', t', hrev⟩ : ∃ c' t', (c :: t).reverse = c' :: t' := by
        cases hr : (c :: t).reverse with
        | nil => simp at hr
        | cons c' t' => exact ⟨c', t', rfl⟩
      have hc' : isPySpace c' = false := h2 c' (by rw [hrev]; rfl)
      unfold pyStripChars
      rw [List.cons_append, List.dropWhile_cons, if_neg (by simp [hc])]
      rw [show (c :: (t ++ [' '])).reverse = ' ' :: (c :: t).reverse by
        rw [← List.cons_append, List.reverse_append]; rfl]
      rw [List.dropWhile_cons, if_pos (by decide)]
      rw [hrev, List.dropWhile_cons, if_neg (by simp [hc']), ← hrev,
        List.reverse_reverse]

theorem pySplit_no_sep {sep : Char} :
    ∀ {l : List Char}, (∀ c ∈ l, c ≠ sep) → pySplit sep l = [l] := by
  intro l
  induction l with
  | nil => intro _; rfl
  | cons c t ih =>
    intro h
    simp only [pySplit]
    rw [if_neg (h c (List.mem_cons_self _ _)),
      ih (fun c' hc' => h c' (List.mem_cons_of_mem _ hc'))]

theorem pySplit_cons_sep {sep : Char} :
    ∀ (l rest : List Char), (∀ c ∈ l, c ≠ sep) →
      pySplit sep (l ++ sep :: rest) = l :: pySplit sep rest := by
  intro l
  induction l with
  | nil => intro rest _; simp [pySplit]
  | cons c t ih =>
    intro rest h
    rw [show pySplit sep ((c :: t) ++ sep :: rest)
        = if c = sep then [] :: pySplit sep (t ++ sep :: rest)
          else match pySplit sep (t ++ sep :: rest) with
            | h' :: t' => (c :: h') :: t'
            | [] => [[c]] from rfl]
    rw [if_neg (h c (List.mem_cons_self _ _)),
      ih rest (fun c' hc' => h c' (List.mem_cons_of_mem _ hc'))]

theorem pieces_amp :
    ∀ (ws' : List (List Char)) (w : List Char), w ≠ [] → w.all isWordChar = true →
      (∀ x ∈ ws', x ≠ [] ∧ x.all isWordChar = true) →
      ((pySplit '&' (' ' :: (w ++ ampTail ws'))).map
          (fun p => String.mk (pyStripChars p))).filter (· ≠ "")
        = (w :: ws').map String.mk := by
  intro ws'
  induction ws' with
  | nil =>
    intro w hw hwall _
    rw [show ampTail ([] : List (List Char)) = [] from rfl, List.append_nil]
    have hedges := word_list_edges hwall
    have hns : ∀ c ∈ ' ' :: w, c ≠ '&' := by
      intro c hc
      rcases List.mem_cons.mp hc with rfl | hc
      · decide
      · exact isWordChar_ne_amp (List.all_eq_true.mp hwall _ hc)
    rw [pySplit_no_sep hns]
    simp only [List.map_cons, List.map_nil, List.filter_cons,
      (strip_space_wrap hedges.1 hedges.2).1]
    have hmk : String.mk w ≠ "" := by
      intro hx
      exact hw (congrArg String.data hx)
    simp [hmk]
  | cons w3 rest ih =>
    intro w hw hwall h
    have htail : ampTail (w3 :: rest) = (' ' :: '&' :: ' ' :: w3) ++ ampTail rest := by
      simp [ampTail]
    have hassoc : ' ' :: (w ++ ampTail (w3 :: rest))
        = ((' ' :: (w ++ [' '])) ++ '&' :: (' ' :: (w3 ++ ampTail rest))) := by
      rw [htail]; simp
    rw [hassoc]
    have hedges := word_list_edges hwall
    have hns : ∀ c ∈ ' ' :: (w ++ [' ']), c ≠ '&' := by
      intro c hc
      rcases List.mem_cons.mp hc with rfl | hc
      · decide
      · rcases List.mem_append.mp hc with hc | hc
        · exact isWordChar_ne_amp (List.all_eq_true.mp hwall _ hc)
        · simp only [List.mem_singleton] at hc; subst hc; decide
    rw [pySplit_cons_sep _ _ hns]
    obtain ⟨hw3, hw3all⟩ := h w3 (List.mem_cons_self _ _)
    simp only [List.map_cons, List.filter_cons,
      (strip_space_wrap hedges.1 hedges.2).2]
    have hmk : String.mk w ≠ "" := by
      intro hx
      exact hw (congrArg String.data hx)
    rw [ih w3 hw3 hw3all (fun x hx => h x (List.mem_cons_of_mem _ hx))]
    simp [hmk]

theorem parallelOf_amp (w1 w2 : List Char) (ws' : List (List Char))
    (hw1all : w1.all isWordChar = true)
    (hw2 : w2 ≠ []) (hw2all : w2.all isWordChar = true)
    (hws : ∀ x ∈ ws', x ≠ [] ∧ x.all isWordChar = true) :
    parallelOf (w1 ++ ampTail (w2 :: ws')) = (w2 :: ws').map String.mk := by
  obtain ⟨c, w2', rfl⟩ : ∃ c t, w2 = c :: t := by
    cases w2 with
    | nil => exact absurd rfl hw2
    | cons a b => exact ⟨a, b, rfl⟩
  have hc : isWordChar c = true ∧ w2'.all isWordChar = true := by simpa using hw2all
  have htail : ampTail ((c :: w2') :: ws')
      = ' ' :: '&' :: ' ' :: (c :: (w2' ++ ampTail ws')) := by
    simp [ampTail]
  have hsearch : parallelSearch (w1 ++ ampTail ((c :: w2') :: ws'))
      = some ('&' :: ' ' :: (c :: (w2' ++ ampTail ws'))) := by
    unfold parallelSearch
    rw [ampGo_scan_skip _
      (fun x hx => isWordChar_ne_amp (List.all_eq_true.mp hw1all _ hx))]
    rw [htail]
    rw [show ampGo (' ' :: '&' :: ' ' :: (c :: (w2' ++ ampTail ws'))) .scan
        = ampGo ('&' :: ' ' :: (c :: (w2' ++ ampTail ws'))) .scan from rfl]
    rw [show ampGo ('&' :: ' ' :: (c :: (w2' ++ ampTail ws'))) .scan
        = ampGo (' ' :: (c :: (w2' ++ ampTail ws'))) (.sp1 ['&']) from rfl]
    rw [show ampGo (' ' :: (c :: (w2' ++ ampTail ws'))) (.sp1 ['&'])
        = ampGo (c :: (w2' ++ ampTail ws')) (.sp1 [' ', '&']) from rfl]
    rw [show ampGo (c :: (w2' ++ ampTail ws')) (.sp1 [' ', '&'])
        = if isPySpace c then ampGo (w2' ++ ampTail ws') (.sp1 (c :: [' ', '&']))
          else if isWordChar c then ampGo (w2' ++ ampTail ws') (.word (c :: [' ', '&']))
          else if c = '&' then ampGo (w2' ++ ampTail ws') (.sp1 ['&'])
          else ampGo (w2' ++ ampTail ws') .scan from rfl]
    rw [if_neg (by simp [isWordChar_not_space hc.1]), if_pos hc.1]
    rw [ampGo_word_run _ _ hc.2, ampGo_ampTail ws' _ hws]
    simp [List.reverse_append]
  unfold parallelOf
  rw [hsearch]
  show ((pySplit '&' ('&' :: ' ' :: (c :: (w2' ++ ampTail ws')))).map
      (fun p => String.mk (pyStripChars p))).filter (· ≠ "") = _
  have hsplit : pySplit '&' ('&' :: ' ' :: (c :: (w2' ++ ampTail ws')))
      = [] :: pySplit '&' (' ' :: ((c :: w2') ++ ampTail ws')) := by
    simp [pySplit]
  rw [hsplit]
  simp only [List.map_cons, List.filter_cons,
    show String.mk (pyStripChars []) = "" from rfl]
  rw [if_neg (by simp)]
  exact pieces_amp ws' (c :: w2') (by simp) hw2all hws

theorem parseSingleChars_no_subject {cs act rest0 : List Char}
    (htake : cs.takeWhile isWordChar = act) (hact : act ≠ [])
    (hstrip : pyStripChars (cs.drop act.length) = rest0)
    (hhead : ∀ c r, rest0 = c :: r → c ≠ '"' ∧ c ≠ '\x7b') :
    parseSingleChars cs = .ok (AST.mk (String.mk act) ""
      (findSpecs rest0)
      (findMods '!' rest0) (findMods '~' rest0) (findMods '^' rest0) (findMods '_' rest0)
      none (parallelOf rest0) none (dedupKeys (findVars cs))) := by
  simp only [parseSingleChars, htake, hstrip]
  rw [if_neg hact]
  split
  · exact absurd rfl (hhead _ _ rfl).1
  · exact absurd rfl (hhead _ _ rfl).2
  · rfl

/-- Counterexample for C8: in `write title & summary & tags`, the parallel
run's first identifier `title` is NOT part of the `parallel` list, because
`group(0)` of the parallel regex starts at the first `&` and so
`group(0).split("&")` only yields the identifiers after each `&`. -/
theorem c8_counterexample :
    (parseSingle "write title & summary & tags").map AST.parallel
        = .ok ["summary", "tags"]
    ∧ (["summary", "tags"] : List String) ≠ ["title", "summary", "tags"] :=
  ⟨rfl, by decide⟩

/-- C8 (amended): for every segment `act w1 & w2 & … & wn` built from an
action word, a first identifier `w1` and further identifiers `w2 … wn`
(all non-empty runs of word characters, single-space separated around each
`&`), `_parse_single` puts exactly `[w2, …, wn]` — the identifiers
following each `&`, excluding the first identifier of the run — in the
`parallel` field, in order. -/
theorem c8_parallel_excludes_first_identifier (act w1 : List Char)
    (ws : List (List Char))
    (hact : act ≠ []) (hactall : act.all isWordChar = true)
    (hw1 : w1 ≠ []) (hw1all : w1.all isWordChar = true)
    (hws : ws ≠ []) (hall : ∀ x ∈ ws, x ≠ [] ∧ x.all isWordChar = true) :
    (parseSingleChars (act ++ (' ' :: (w1 ++ ampTail ws)))).map AST.parallel
      = .ok (ws.map String.mk) := by
  obtain ⟨w2, ws', rfl⟩ : ∃ w2 ws', ws = w2 :: ws' := by
    cases ws with
    | nil => exact absurd rfl hws
    | cons a b => exact ⟨a, b, rfl⟩
  obtain ⟨d, w1', rfl⟩ : ∃ d t, w1 = d :: t := by
    cases w1 with
    | nil => exact absurd rfl hw1
    | cons a b => exact ⟨a, b, rfl⟩
  have hd : isWordChar d = true ∧ w1'.all isWordChar = true := by simpa using hw1all
  obtain ⟨hw2ne, hw2all⟩ := hall w2 (List.mem_cons_self _ _)
  have hws' : ∀ x ∈ ws', x ≠ [] ∧ x.all isWordChar = true :=
    fun x hx => hall x (List.mem_cons_of_mem _ hx)
  have htake : ((act ++ (' ' :: ((d :: w1') ++ ampTail (w2 :: ws')))).takeWhile
      isWordChar) = act := by
    rw [takeWhile_append_all _ hactall]
    simp [List.takeWhile_cons, show isWordChar ' ' = false from by decide]
  have hdrop : ((act ++ (' ' :: ((d :: w1') ++ ampTail (w2 :: ws')))).drop
      act.length) = ' ' :: ((d :: w1') ++ ampTail (w2 :: ws')) :=
    List.drop_left _ _
  have hX2 : ∀ c, ((d :: w1') ++ ampTail (w2 :: ws')).reverse.head? = some c →
      isPySpace c = false := by
    intro c hc
    obtain ⟨c0, hc0, hc0w⟩ := ampTail_reverse_head (w2 :: ws') (by simp) hall
    rw [List.reverse_append] at hc
    cases hr : (ampTail (w2 :: ws')).reverse with
    | nil => exact absurd (by simpa using hr) (ampTail_ne_nil _)
    | cons e t =>
      rw [hr] at hc hc0
      simp only [List.cons_append, List.head?_cons, Option.some.injEq] at hc hc0
      subst hc
      subst hc0
      exact isWordChar_not_space hc0w
  have hX1 : ∀ c, ((d :: w1') ++ ampTail (w2 :: ws')).head? = some c →
      isPySpace c = false := by
    intro c hc
    simp only [List.cons_append, List.head?_cons, Option.some.injEq] at hc
    subst hc
    exact isWordChar_not_space hd.1
  have hstrip : pyStripChars ((act ++ (' ' :: ((d :: w1') ++
      ampTail (w2 :: ws')))).drop act.length)
      = (d :: w1') ++ ampTail (w2 :: ws') := by
    rw [hdrop]
    exact (strip_space_wrap hX1 hX2).1
  have hhead : ∀ c r, (d :: w1') ++ ampTail (w2 :: ws') = c :: r →
      c ≠ '"' ∧ c ≠ '\x7b' := by
    intro c r hcr
    rw [List.cons_append] at hcr
    injection hcr with h1 _
    subst h1
    exact ⟨isWordChar_ne_quote hd.1, isWordChar_ne_brace hd.1⟩
  rw [parseSingleChars_no_subject htake hact hstrip hhead]
  simp only [Except.map, AST.parallel]
  rw [parallelOf_amp _ _ _ hw1all hw2ne hw2all hws']

/-- Witness for C8's amended theorem at `write title & summary & tags`. -/
theorem c8_witness :
    (parseSingleChars (['w', 'r', 'i', 't', 'e'] ++ (' ' ::
        (['t', 'i', 't', 'l', 'e'] ++
          ampTail [['s', 'u', 'm', 'm', 'a', 'r', 'y'],
                   ['t', 'a', 'g', 's']])))).map AST.parallel
      = .ok (([['s', 'u', 'm', 'm', 'a', 'r', 'y'],
               ['t', 'a', 'g', 's']] : List (List Char)).map String.mk) :=
  c8_parallel_excludes_first_identifier
    ['w', 'r', 'i', 't', 'e'] ['t', 'i', 't', 'l', 'e']
    [['s', 'u', 'm', 'm', 'a', 'r', 'y'], ['t', 'a', 'g', 's']]
    (by decide) (by decide) (by decide) (by decide) (by decide) (by decide)

end AILang
